import Mathlib

/-!
# sabre: the evaluation engine

A shallow embedding of the evaluation core of `sabre` (package `sabre`:
`sabre.go`, `composites.go`, `func.go`, `scope.go`) and of the interpreter scope of
package `slang`.

Conventions of the embedding.

* Go `string` is `String`; `strings.Split` on the one-byte separator `/` is
  `strSplit` on the character list.
* Go `error` values are the constructors of `Error`, one per `fmt.Errorf`
  site, carrying the formatted operands.  A run-time panic (index out of
  range) is the separate constructor `Error.runtimePanic`.
* A `*MapScope` is a value of the inductive `MapScope`; the parent link is
  the `parent` field, so a scope value carries its whole (finite) parent
  chain.  Operations that mutate a scope return the updated scope.
* The interface methods `Value.Eval` and `Invokable.Invoke` are dynamic
  dispatch in Go.  Functions of the source that call them take the dispatch
  as the parameters `ev` and `inv`; `Eval` and `Invoke` below tie the knot
  for the value kinds of this development, by recursion on a fuel counter.
* Evaluation threads the calling scope: every evaluation returns its result
  together with the scope as it is after the evaluation, on success and on
  failure alike.
* The embedding is sequential: locks (`sync.RWMutex`) are not part of the state.  The
  lock operations of one call of `Resolve` are recorded, in order, by `ResolveLocks`.
* Package `slang` (`slang/slang.go`): the interpreter scope `Slang` and `BindAll`.
-/

namespace Sabre

/-! ## Values -/

mutual
/-- The value kinds of the evaluator (`Value` interface implementations). -/
inductive Value
  | Nil
  | Bool (b : Bool)
  | Int64 (i : Int)
  | String (s : String)
  | Keyword (s : String)
  | Symbol (Value : String)
  | List (Values : List Value)
  | Vector (Values : List Value)
  | Set (Values : List Value)
  | Module (Values : List Value)
  | MultiFn (multiFn : MultiFn)
  | GoFunc (id : String)
/-- The named multi-arity function or macro definition (`func.go`, `MultiFn`). -/
inductive MultiFn
  | mk (Name : String) ( IsMacro : Bool) (Methods : List Fn)
/-- The single-arity function definition (`func.go`, `Fn`); `Func = none` is Go `nil`. -/
inductive Fn
  | mk (Args : List String) (Variadic : Bool) (Body : Option Value) (Func : Option Value)
end

/-- Field `Name` of `MultiFn`. -/
def MultiFn.Name : MultiFn → String
  | .mk n _ _ => n

/-- Field `IsMacro` of `MultiFn`. -/
def MultiFn.IsMacro : MultiFn → Bool
  | .mk _ m _ => m

/-- Field `Methods` of `MultiFn`. -/
def MultiFn.Methods : MultiFn → List Fn
  | .mk _ _ ms => ms

/-- Field `Args` of `Fn`. -/
def Fn.Args : Fn → List String
  | .mk a _ _ _ => a

/-- Field `Variadic` of `Fn`. -/
def Fn.Variadic : Fn → Bool
  | .mk _ v _ _ => v

/-- Field `Body` of `Fn`. -/
def Fn.Body : Fn → Option Value
  | .mk _ _ b _ => b

/-- Field `Func` of `Fn`. -/
def Fn.Func : Fn → Option Value
  | .mk _ _ _ f => f

/-- Failures of the evaluator, one constructor per `fmt.Errorf` site. -/
inductive Error
  /-- The text "wrong number of args (%d) to '%s'" (`MultiFn.selectMethod`). -/
  | wrongArgCount (argc : Nat) (name : String)
  /-- The text "argument spec must be a vector of symbols" (`parseArgSpec`). -/
  | specNotVector
  /-- The text "expecting one more symbol after '&'" (`checkVariadic`). -/
  | expectOneMore
  /-- The text "expecting only one symbol after '&'" (`checkVariadic`). -/
  | expectOnlyOne
  /-- The text "expecting symbol at '%d', not '%s'" (`toArgNames`). -/
  | notSymbol (i : Nat) (typeName : String)
  /-- The text "cannot to bind outside current namespace" (`MapScope.Bind`). -/
  | bindOutsideNS
  /-- The text "unable to resolve symbol: %v" (`MapScope.Resolve`). -/
  | unresolved (symbol : String)
  /-- The text "invalid qualified symbol: '%s'" (`MapScope.splitSymbol`). -/
  | invalidSymbol (symbol : String)
  /-- The text "cannot invoke value of type '%s'" (`List.Eval`). -/
  | notInvokable (typeName : String)
  /-- The text "call requires exactly 1 argument, got %d" (`Vector.Invoke`). -/
  | wrongCallArity (n : Nat)
  /-- The text "key must be integer" (`Vector.Invoke`). -/
  | keyNotInteger
  /-- The text "index out of bounds" (`Vector.Invoke`). -/
  | indexOutOfBounds
  /-- A failure returned by a host function. -/
  | host (msg : String)
  /-- A Go run-time panic: index or slice bound out of range. -/
  | runtimePanic
  /-- The fuel of `Eval` ran out (not a behaviour of the source). -/
  | outOfFuel
  deriving DecidableEq, Repr

/-- The text of `reflect.TypeOf(v)` for a value of package `sabre`. -/
def typeNameOf : Value → String
  | .Nil => "sabre.Nil"
  | .Bool _ => "sabre.Bool"
  | .Int64 _ => "sabre.Int64"
  | .String _ => "sabre.String"
  | .Keyword _ => "sabre.Keyword"
  | .Symbol _ => "sabre.Symbol"
  | .List _ => "sabre.List"
  | .Vector _ => "sabre.Vector"
  | .Set _ => "sabre.Set"
  | .Module _ => "sabre.Module"
  | .MultiFn _ => "sabre.MultiFn"
  | .GoFunc _ => "sabre.GoFunc"

/-! ## Scopes (`scope.go`) -/

/-- The separator of namespace and name: `const nsSeparator = '/'`. -/
def nsSeparator : Char := '/'

/-- The key of the bindings table (`scope.go`, `nsSymbol`). -/
structure nsSymbol where
  NS : String
  Name : String
  deriving DecidableEq, Repr

/-- The scope (`scope.go`, `MapScope`); `bindings k = none` is an absent key. -/
inductive MapScope
  | mk (parent : Option MapScope) (bindings : nsSymbol → Option Value) (curNS : String)

/-- Field `parent` of `MapScope`. -/
def MapScope.parent : MapScope → Option MapScope
  | .mk p _ _ => p

/-- Field `bindings` of `MapScope`. -/
def MapScope.bindings : MapScope → nsSymbol → Option Value
  | .mk _ b _ => b

/-- Field `curNS` of `MapScope`. -/
def MapScope.curNS : MapScope → String
  | .mk _ _ c => c

/-- The method `MapScope.Parent`. -/
def MapScope.Parent (scope : MapScope) : Option MapScope := scope.parent

/-- The method `MapScope.CurrentNS`. -/
def MapScope.CurrentNS (scope : MapScope) : String := scope.curNS

/-- The pieces of a character list between occurrences of `sep`
(`strings.Split` with a one-character separator). -/
def strSplit (sep : Char) : List Char → List (List Char)
  | [] => [[]]
  | c :: cs =>
    if c = sep then [] :: strSplit sep cs
    else
      match strSplit sep cs with
      | [] => [[c]]
      | p :: ps => (c :: p) :: ps

/-- The Go call `strings.Split(symbol, string(nsSeparator))`. -/
def stringsSplit (symbol : String) : List String :=
  (strSplit nsSeparator symbol.data).map String.mk

/-- The method `MapScope.splitSymbol`. -/
def MapScope.splitSymbol (scope : MapScope) (symbol : String) : Except Error nsSymbol :=
  let parts := stringsSplit symbol
  if parts.length < 2 then
    .ok { NS := scope.curNS, Name := symbol }
  else if parts.length > 2 then
    .error (.invalidSymbol symbol)
  else
    .ok { NS := parts.getD 0 "", Name := parts.getD 1 "" }

/-- The method `MapScope.Bind`: the returned scope is the receiver after the call. -/
def MapScope.Bind (scope : MapScope) (symbol : String) (v : Value) :
    Except Error Unit × MapScope :=
  match scope.splitSymbol symbol with
  | .error err => (.error err, scope)
  | .ok nsSym =>
    if nsSym.NS ≠ scope.CurrentNS then
      (.error .bindOutsideNS, scope)
    else
      (.ok (), .mk scope.parent (Function.update scope.bindings nsSym (some v)) scope.curNS)

/-- The method `MapScope.Resolve`. -/
def MapScope.Resolve : MapScope → String → Except Error Value
  | .mk parent bindings curNS, symbol =>
    let symbol := if symbol = "ns" then "user/ns" else symbol
    match (MapScope.mk parent bindings curNS).splitSymbol symbol with
    | .error err => .error err
    | .ok nsSym =>
      match bindings nsSym with
      | some v => .ok v
      | none =>
        match parent with
        | some p => p.Resolve symbol
        | none => .error (.unresolved symbol)

/-- Modelled from the spec: the method `Symbol.String` is not among the sources; a
symbol renders to its text. -/
def symbolString (Value : String) : String := Value

/-- The method `MapScope.SwitchNS`; `sym` is the field `Value` of the symbol. -/
def MapScope.SwitchNS (scope : MapScope) (sym : String) : Except Error Unit × MapScope :=
  (MapScope.mk scope.parent scope.bindings (symbolString sym)).Bind "*ns*" (.Symbol sym)

/-- Modelled from the spec: the function `ValueOf` is not among the sources; the value
it makes of the method value `scope.SwitchNS` is the host function `GoFunc "SwitchNS"`. -/
def ValueOfSwitchNS : Value := .GoFunc "SwitchNS"

/-- The method `MapScope.BindGo`, at the already converted value. -/
def MapScope.BindGo (scope : MapScope) (symbol : String) (v : Value) :
    Except Error Unit × MapScope :=
  scope.Bind symbol v

/-- The function `NewScope`. -/
def NewScope (parent : Option MapScope) : MapScope :=
  let scope := MapScope.mk parent (fun _ => none) ""
  let scope := (scope.SwitchNS "user").2
  let scope := (scope.BindGo "ns" ValueOfSwitchNS).2
  scope

/-! ## The evaluation protocol (`sabre.go`) -/

/-- The result of an evaluation or invocation, with the calling scope afterwards. -/
abbrev Outcome := Except Error Value × MapScope

/-- The interface method `Value.Eval(scope)`, as a dispatch parameter. -/
abbrev EvalFn := Value → MapScope → Outcome

/-- The interface method `Invokable.Invoke(scope, args...)`, as a dispatch parameter. -/
abbrev InvokeFn := Value → MapScope → List Value → Outcome

/-- The loop of `evalValueList`; `result` is the slice accumulated so far. -/
def evalValueListLoop (ev : EvalFn) :
    List Value → List Value → MapScope → Except Error (List Value) × MapScope
  | [], result, scope => (.ok result, scope)
  | arg :: rest, result, scope =>
    match ev arg scope with
    | (.error err, scope1) => (.error err, scope1)
    | (.ok v, scope1) => evalValueListLoop ev rest (result ++ [v]) scope1

/-- The function `evalValueList` (`composites.go`). -/
def evalValueList (ev : EvalFn) (scope : MapScope) (vals : List Value) :
    Except Error (List Value) × MapScope :=
  evalValueListLoop ev vals [] scope

/-! ## Functions (`func.go`) -/

/-- The method `Fn.matchArity`; Go `int` arithmetic is on `Int`. -/
def Fn.matchArity (fn : Fn) (args : List Value) : Bool :=
  let argc : Int := args.length
  if fn.Variadic then
    decide (argc ≥ (fn.Args.length : Int) - 1)
  else
    decide (argc = (fn.Args.length : Int))

/-- The loop of `MultiFn.selectMethod` over the remaining methods. -/
def selectMethodLoop (args : List Value) : List Fn → Option Fn
  | [] => none
  | fn :: rest => if fn.matchArity args then some fn else selectMethodLoop args rest

/-- The method `MultiFn.selectMethod`. -/
def MultiFn.selectMethod (multiFn : MultiFn) (args : List Value) : Except Error Fn :=
  match selectMethodLoop args multiFn.Methods with
  | some fn => .ok fn
  | none => .error (.wrongArgCount args.length multiFn.Name)

/-- The value bound to the parameter at `idx` by `Fn.Invoke`: `none` is the Go panic
of `args[idx]` or `args[idx:]` out of range. -/
def Fn.argVal (fn : Fn) (args : List Value) (idx : Nat) : Option Value :=
  if (idx : Int) = (fn.Args.length : Int) - 1 ∧ fn.Variadic = true then
    if idx ≤ args.length then some (.List (args.drop idx)) else none
  else
    args.get? idx

/-- The binding loop of `Fn.Invoke` from index `idx` on; `names` is `fn.Args[idx:]`.
The error of `Bind` is discarded, as in the source. -/
def Fn.bindLoop (fn : Fn) (args : List Value) : Nat → List String → MapScope → Option MapScope
  | _, [], fnScope => some fnScope
  | idx, name :: rest, fnScope =>
    match fn.argVal args idx with
    | none => none
    | some argVal => Fn.bindLoop fn args (idx + 1) rest (fnScope.Bind name argVal).2

/-- The function scope of `Fn.Invoke` when the body is evaluated: a new scope whose
parent is the scope given to `Invoke`, with the parameters bound. -/
def Fn.fnScope (fn : Fn) (scope : MapScope) (args : List Value) : Option MapScope :=
  Fn.bindLoop fn args 0 fn.Args (NewScope (some scope))

/-- The method `Fn.Invoke`.  The scope returned is the calling scope after the call:
the parent link of the function scope after the body has run. -/
def Fn.Invoke (ev : EvalFn) (inv : InvokeFn) (fn : Fn) (scope : MapScope)
    (args : List Value) : Outcome :=
  match fn.Func with
  | some f => inv f scope args
  | none =>
    match fn.fnScope scope args with
    | none => (.error .runtimePanic, scope)
    | some fnScope =>
      match fn.Body with
      | none => (.ok .Nil, scope)
      | some body =>
        let r := ev body fnScope
        (r.1, r.2.parent.getD scope)

/-- The method `MultiFn.Invoke`. -/
def MultiFn.Invoke (ev : EvalFn) (inv : InvokeFn) (multiFn : MultiFn) (scope : MapScope)
    (args : List Value) : Outcome :=
  match multiFn.selectMethod args with
  | .error err => (.error err, scope)
  | .ok fn =>
    if MultiFn.IsMacro multiFn then
      match fn.Invoke ev inv scope args with
      | (.error err, scope1) => (.error err, scope1)
      | (.ok v, scope1) => ev v scope1
    else
      match evalValueList ev scope args with
      | (.error err, scope1) => (.error err, scope1)
      | (.ok argVals, scope1) => fn.Invoke ev inv scope1 argVals

/-- The loop of `toArgNames`; `i` is the index of the next value. -/
def toArgNamesLoop : Nat → List Value → List String → Except Error (List String)
  | _, [], names => .ok names
  | i, v :: rest, names =>
    match v with
    | .Symbol sym => toArgNamesLoop (i + 1) rest (names ++ [sym])
    | other => .error (.notSymbol i (typeNameOf other))

/-- The function `toArgNames`. -/
def toArgNames (vals : List Value) : Except Error (List String) :=
  toArgNamesLoop 0 vals []

/-- The loop of `checkVariadic` from index `i` on; `len` is `len(args)`. -/
def checkVariadicLoop (len : Nat) : Nat → List String → Except Error Bool
  | _, [] => .ok false
  | i, arg :: rest =>
    if arg ≠ "&" then checkVariadicLoop len (i + 1) rest
    else if (i : Int) > (len : Int) - 2 then .error .expectOneMore
    else if (i : Int) < (len : Int) - 2 then .error .expectOnlyOne
    else .ok true

/-- The function `checkVariadic`. -/
def checkVariadic (args : List String) : Except Error Bool :=
  checkVariadicLoop args.length 0 args

/-- The method `Fn.parseArgSpec`: the returned `Fn` is the receiver after the call. -/
def Fn.parseArgSpec (fn : Fn) (spec : Value) : Except Error Unit × Fn :=
  match spec with
  | .Vector vals =>
    match toArgNames vals with
    | .error err => (.error err, fn)
    | .ok argNames =>
      match checkVariadic argNames with
      | .error err => (.error err, .mk fn.Args false fn.Body fn.Func)
      | .ok true =>
        let argc := argNames.length
        match argNames.get? (argc - 1) with
        | none => (.error .runtimePanic, .mk fn.Args true fn.Body fn.Func)
        | some last => (.ok (), .mk (argNames.take (argc - 2) ++ [last]) true fn.Body fn.Func)
      | .ok false => (.ok (), .mk argNames false fn.Body fn.Func)
  | _ => (.error .specNotVector, fn)

/-! ## Composite forms (`composites.go`) -/

/-- The type assertion `target.(Invokable)`: the value kinds of this development with
a method `Invoke(scope, args...)`, the shape `List.Eval` calls. -/
def isInvokable : Value → Bool
  | .MultiFn _ => true
  | .Vector _ => true
  | .GoFunc _ => true
  | _ => false

/-- The method `List.Eval`. -/
def List.Eval (ev : EvalFn) (inv : InvokeFn) (lf : List Value) (scope : MapScope) : Outcome :=
  match lf with
  | [] => (.ok (.List []), scope)
  | head :: tail =>
    match ev head scope with
    | (.error err, scope1) => (.error err, scope1)
    | (.ok target, scope1) =>
      if isInvokable target then inv target scope1 tail
      else (.error (.notInvokable (typeNameOf target)), scope1)

/-- The method `Vector.Eval`. -/
def Vector.Eval (ev : EvalFn) (vf : List Value) (scope : MapScope) : Outcome :=
  match evalValueList ev scope vf with
  | (.error err, scope1) => (.error err, scope1)
  | (.ok vals, scope1) => (.ok (.Vector vals), scope1)

/-- The method `Vector.Invoke`; a negative index passes the bounds test and the
indexing `vf[index]` panics. -/
def Vector.Invoke (ev : EvalFn) (vf : List Value) (scope : MapScope) (args : List Value) :
    Outcome :=
  match evalValueList ev scope args with
  | (.error err, scope1) => (.error err, scope1)
  | (.ok vals, scope1) =>
    match vals with
    | [.Int64 index] =>
      if index ≥ (vf.length : Int) then (.error .indexOutOfBounds, scope1)
      else if index < 0 then (.error .runtimePanic, scope1)
      else
        match vf.get? index.toNat with
        | some v => (.ok v, scope1)
        | none => (.error .runtimePanic, scope1)
    | [_] => (.error .keyNotInteger, scope1)
    | _ => (.error (.wrongCallArity vals.length), scope1)

/-- The method `Set.Eval`: the result is `Set(vals)`, the evaluated elements.  The source
also collects the evaluated elements by their rendering into the map `vs` and the slice
`valueSet`, and does not use either. -/
def Set.Eval (ev : EvalFn) (set : List Value) (scope : MapScope) : Outcome :=
  match evalValueList ev scope set with
  | (.error err, scope1) => (.error err, scope1)
  | (.ok vals, scope1) => (.ok (.Set vals), scope1)

/-- The method `Module.Eval`. -/
def Module.Eval (ev : EvalFn) (mod : List Value) (scope : MapScope) : Outcome :=
  match evalValueList ev scope mod with
  | (.error err, scope1) => (.error err, scope1)
  | (.ok res, scope1) =>
    match res.getLast? with
    | none => (.ok .Nil, scope1)
    | some last => (.ok last, scope1)

/-! ## The evaluator -/

/-- Modelled from the spec: `Symbol.Eval` is not among the sources; symbol evaluation
delegates to scope resolution and surfaces the failure of the scope verbatim. -/
def SymbolEval (name : String) (scope : MapScope) : Outcome :=
  (scope.Resolve name, scope)

/-- Modelled from the spec: the `Eval` methods of the atomic kinds are not among the
sources; an atomic non-symbol value evaluates to itself with no side effect.  The
callables `MultiFn` and `GoFunc` do the same in the source (`func.go`). -/
def SelfEval (v : Value) (scope : MapScope) : Outcome :=
  (.ok v, scope)

/-- The host functions behind `GoFunc` values, by name; a host function gets the
evaluator, the calling scope and the argument forms. -/
abbrev Host := String → EvalFn → MapScope → List Value → Outcome

mutual
/-- The dispatch of `Value.Eval` on the value kind, with `fuel` bounding the depth of
nested evaluation. -/
def Eval (host : Host) : Nat → Value → MapScope → Outcome
  | 0, _, scope => (.error .outOfFuel, scope)
  | fuel + 1, v, scope =>
    match v with
    | .Symbol name => SymbolEval name scope
    | .List lf => List.Eval (Eval host fuel) (Invoke host fuel) lf scope
    | .Vector vf => Vector.Eval (Eval host fuel) vf scope
    | .Set set => Set.Eval (Eval host fuel) set scope
    | .Module mod => Module.Eval (Eval host fuel) mod scope
    | other => SelfEval other scope
/-- The dispatch of `Invokable.Invoke` on the value kind. -/
def Invoke (host : Host) : Nat → Value → MapScope → List Value → Outcome
  | 0, _, scope, _ => (.error .outOfFuel, scope)
  | fuel + 1, target, scope, args =>
    match target with
    | .MultiFn multiFn => MultiFn.Invoke (Eval host fuel) (Invoke host fuel) multiFn scope args
    | .Vector vf => Vector.Invoke (Eval host fuel) vf scope args
    | .GoFunc id => host id (Eval host fuel) scope args
    | other => (.error (.notInvokable (typeNameOf other)), scope)
end

/-- A host with no functions: every `GoFunc` fails. -/
def noHost : Host := fun id _ scope _ => (.error (.host id), scope)

/-! ## Notions of the specification -/

/-- The number of namespace separators in a symbol text. -/
def sepCount (symbol : String) : Nat := symbol.data.count nsSeparator

/-- The explicit namespace of a symbol text: the text before the first separator. -/
def nsPart (symbol : String) : String :=
  String.mk (symbol.data.takeWhile (fun c => c != nsSeparator))

/-- The name of a qualified symbol text: the text after the first separator. -/
def namePart (symbol : String) : String :=
  String.mk ((symbol.data.dropWhile (fun c => c != nsSeparator)).drop 1)

/-- The key (namespace, name) of a symbol text with at most one separator, seen from a
scope: an unqualified text is qualified with the current namespace of the scope. -/
def MapScope.keyOf (scope : MapScope) (symbol : String) : nsSymbol :=
  if sepCount symbol = 0 then { NS := scope.CurrentNS, Name := symbol }
  else { NS := nsPart symbol, Name := namePart symbol }

/-- The text that `Resolve` looks up for a symbol: `ns` stands for `user/ns`. -/
def resolveText (symbol : String) : String :=
  if symbol = "ns" then "user/ns" else symbol

/-- The scope itself followed by its ancestors, nearest first. -/
def MapScope.chain : MapScope → List MapScope
  | .mk parent bindings curNS =>
    MapScope.mk parent bindings curNS ::
      (match parent with
       | some p => p.chain
       | none => [])

/-- The binding `user/ns` is present: `NewScope` makes it and no operation removes a
binding, so it holds of every scope a program can have. -/
def MapScope.hasNS (scope : MapScope) : Prop :=
  scope.bindings { NS := "user", Name := "ns" } ≠ none

/-- Evaluation of a sequence of forms left to right, in the words of the specification:
each form is evaluated once, in the scope left by the forms before it; the first
failure aborts and is the result; otherwise the values are collected in order. -/
def evalInOrder (ev : EvalFn) : List Value → MapScope → Except Error (List Value) × MapScope
  | [], scope => (.ok [], scope)
  | form :: rest, scope =>
    match ev form scope with
    | (.error err, scope1) => (.error err, scope1)
    | (.ok v, scope1) =>
      match evalInOrder ev rest scope1 with
      | (.error err, scope2) => (.error err, scope2)
      | (.ok vs, scope2) => (.ok (v :: vs), scope2)

/-! ## Example inputs -/

/-- A root scope in namespace `user` with `x` bound to 1. -/
def scopeX1 : MapScope := ((NewScope none).Bind "x" (.Int64 1)).2

/-- A root scope in namespace `user` with `x` bound to 2. -/
def scopeX2 : MapScope := ((NewScope none).Bind "x" (.Int64 2)).2

/-- A root scope switched to namespace `foo`. -/
def scopeFoo : MapScope := ((NewScope none).SwitchNS "foo").2

/-- A child of `scopeX1` switched to namespace `foo`. -/
def childFoo : MapScope := ((NewScope (some scopeX1)).SwitchNS "foo").2

/-- A function without parameters whose body is the free symbol `x`. -/
def fnFreeX : Fn := .mk [] false (some (.Symbol "x")) none

/-- The function with parameters `[a b & rest]` whose body is `rest`. -/
def fnRest : Fn := .mk ["a", "b", "rest"] true (some (.Symbol "rest")) none

/-- The identity macro: one parameter `form`, body `form`. -/
def macroId : MultiFn := .mk "id" true [.mk ["form"] false (some (.Symbol "form")) none]

/-- The function `second` of two parameters returning the second. -/
def fnSecond : MultiFn := .mk "second" false [.mk ["a", "b"] false (some (.Symbol "b")) none]

/-- An empty function definition, the receiver of `parseArgSpec`. -/
def fnEmpty : Fn := .mk [] false none none

/-! ## Set validity (`composites.go`) -/

/-- The loop of `Set.valid`; `seen` holds the keys of the map `s`.  The interface method
`Value.String` is the dispatch parameter `render`. -/
def Set.validLoop (render : Value → String) : List Value → List String → Bool
  | [], _ => true
  | v :: rest, seen =>
    if render v ∈ seen then false
    else Set.validLoop render rest (render v :: seen)

/-- The method `Set.valid`: no two elements have the same rendering. -/
def Set.valid (render : Value → String) (set : List Value) : Bool :=
  Set.validLoop render set []

/-! ## The interpreter scope of package `slang` (`slang/slang.go`) -/

/-- The interpreter instance (`slang.go`, `Slang`): a root scope without parent. -/
structure Slang where
  currentNS : String
  bindings : nsSymbol → Option Value

/-- The method `Slang.splitSymbol`. -/
def Slang.splitSymbol (slang : Slang) (symbol : String) : Except Error nsSymbol :=
  let parts := stringsSplit symbol
  if parts.length < 2 then
    .ok { NS := slang.currentNS, Name := symbol }
  else if parts.length > 2 then
    .error (.invalidSymbol symbol)
  else
    .ok { NS := parts.getD 0 "", Name := parts.getD 1 "" }

/-- The method `Slang.Bind`: the returned value is the receiver after the call. -/
def Slang.Bind (slang : Slang) (symbol : String) (v : Value) : Except Error Unit × Slang :=
  match slang.splitSymbol symbol with
  | .error err => (.error err, slang)
  | .ok nsSym =>
    if nsSym.NS ≠ slang.currentNS then
      (.error .bindOutsideNS, slang)
    else
      (.ok (), { slang with bindings := Function.update slang.bindings nsSym (some v) })

/-- The method `Slang.Resolve`, with its second lookup of the same key. -/
def Slang.Resolve (slang : Slang) (symbol : String) : Except Error Value :=
  let symbol := if symbol = "ns" then "user/ns" else symbol
  match slang.splitSymbol symbol with
  | .error err => .error err
  | .ok nsSym =>
    match slang.bindings nsSym with
    | some v => .ok v
    | none =>
      match slang.bindings nsSym with
      | none => .error (.unresolved symbol)
      | some _ => .error (.unresolved symbol)

/-- The method `Slang.BindGo`, at the already converted value. -/
def Slang.BindGo (slang : Slang) (symbol : String) (v : Value) : Except Error Unit × Slang :=
  slang.Bind symbol v

/-- The method `Slang.SwitchNS`; `sym` is the field `Value` of the symbol. -/
def Slang.SwitchNS (slang : Slang) (sym : String) : Except Error Unit × Slang :=
  Slang.Bind { slang with currentNS := symbolString sym } "*ns*" (.Symbol sym)

/-- The map `core` of `BindAll`, in the order of the source text.  The functions bound
(`Eval`, `Not`, `MakeBool`, `makeContainer`, `IsType`, ...) are host functions that are
not among the sources; each is the `GoFunc` named by its Go expression. -/
def coreTable : List (String × Value) :=
  [ ("core/eval", .GoFunc "Eval"),
    ("core/not", .GoFunc "Not"),
    ("core/boolean", .GoFunc "MakeBool"),
    ("core/str", .GoFunc "MakeString"),
    ("core/type", .GoFunc "TypeOf"),
    ("core/set", .GoFunc "makeContainer(Set)"),
    ("core/list", .GoFunc "makeContainer(List)"),
    ("core/vector", .GoFunc "makeContainer(Vector)"),
    ("core/nil?", .GoFunc "IsType(Nil)"),
    ("core/int?", .GoFunc "IsType(Int64)"),
    ("core/set?", .GoFunc "IsType(Set)"),
    ("core/boolean?", .GoFunc "IsType(Bool)"),
    ("core/list?", .GoFunc "IsType(List)"),
    ("core/string?", .GoFunc "IsType(String)"),
    ("core/float?", .GoFunc "IsType(Float64)"),
    ("core/vector?", .GoFunc "IsType(Vector)"),
    ("core/keyword?", .GoFunc "IsType(Keyword)"),
    ("core/symbol?", .GoFunc "IsType(Symbol)") ]

/-- The loop of `BindAll` over the entries of the map that are still to come. -/
def BindAllLoop : List (String × Value) → Slang → Except Error Unit × Slang
  | [], scope => (.ok (), scope)
  | (sym, val) :: rest, scope =>
    match scope.Bind sym val with
    | (.error err, scope1) => (.error err, scope1)
    | (.ok _, scope1) => BindAllLoop rest scope1

/-- The function `BindAll` on an interpreter scope.  Go leaves the iteration order of a
map open: `order` is the order in which one run visits the entries of `core`. -/
def BindAll (order : List (String × Value)) (scope : Slang) : Except Error Unit × Slang :=
  BindAllLoop order scope

/-- The interpreter of `New` just before the call of `BindAll`: namespace `user`, the
marker and `ns` bound. -/
def newBeforeBindAll : Slang :=
  let sl : Slang := { currentNS := "", bindings := fun _ => none }
  let sl := (sl.SwitchNS "user").2
  let sl := (sl.BindGo "ns" ValueOfSwitchNS).2
  sl

/-- The function `New`; the error of `BindAll` is discarded, as in the source. -/
def New (order : List (String × Value)) : Slang :=
  (BindAll order newBeforeBindAll).2

/-! ## Lock events of `MapScope.Resolve` -/

/-- An operation on the read-write lock `mu` of a scope; the scope is named by its
distance from the scope on which `Resolve` was called (0 the scope itself, 1 its
parent, ...). -/
inductive LockEvent
  | RLock (depth : Nat)
  | RUnlock (depth : Nat)
  deriving DecidableEq, Repr

/-- The method `MapScope.Resolve` together with the lock operations it performs, in
order.  `scope.mu.RLock()` comes first; the deferred `scope.mu.RUnlock()` runs when the
method returns, so after the call `scope.parent.Resolve(symbol)` has returned. -/
def MapScope.ResolveLocks : MapScope → Nat → String → Except Error Value × List LockEvent
  | .mk parent bindings curNS, depth, symbol =>
    let symbol := if symbol = "ns" then "user/ns" else symbol
    match (MapScope.mk parent bindings curNS).splitSymbol symbol with
    | .error err => (.error err, [.RLock depth, .RUnlock depth])
    | .ok nsSym =>
      match bindings nsSym with
      | some v => (.ok v, [.RLock depth, .RUnlock depth])
      | none =>
        match parent with
        | some p =>
          let r := p.ResolveLocks (depth + 1) symbol
          (r.1, .RLock depth :: r.2 ++ [.RUnlock depth])
        | none => (.error (.unresolved symbol), [.RLock depth, .RUnlock depth])

/-- The number of read locks held after the events of a trace, `held` being held
before it. -/
def heldAfter : Nat → List LockEvent → Nat
  | held, [] => held
  | held, .RLock _ :: rest => heldAfter (held + 1) rest
  | held, .RUnlock _ :: rest => heldAfter (held - 1) rest

/-- The largest number of read locks held at any point of a trace, `held` being held
before it. -/
def maxHeldFrom : Nat → List LockEvent → Nat
  | held, [] => held
  | held, .RLock _ :: rest => max held (maxHeldFrom (held + 1) rest)
  | held, .RUnlock _ :: rest => max held (maxHeldFrom (held - 1) rest)

/-- The largest number of read locks held at once in a trace that starts with no lock
held. -/
def maxHeld (trace : List LockEvent) : Nat := maxHeldFrom 0 trace

/-! ## More example inputs -/

/-- A root scope in namespace `user` with `x` and `y` both bound to 1. -/
def scopeXY : MapScope := (((NewScope none).Bind "x" (.Int64 1)).2.Bind "y" (.Int64 1)).2

/-- A host with the one function `def`: it evaluates its second argument and binds the
symbol given as the first argument to the value, in the calling scope. -/
def hostDef : Host := fun id ev scope args =>
  match args with
  | [.Symbol name, form] =>
    if id = "def" then
      match ev form scope with
      | (.error err, scope1) => (.error err, scope1)
      | (.ok v, scope1) =>
        match scope1.Bind name v with
        | (.error err, scope2) => (.error err, scope2)
        | (.ok _, scope2) => (.ok v, scope2)
    else (.error (.host id), scope)
  | _ => (.error (.host id), scope)

/-- The module `(def y 5) y`. -/
def moduleDefY : List Value :=
  [.List [.GoFunc "def", .Symbol "y", .Int64 5], .Symbol "y"]

/-- The vector `[10 20 30]`. -/
def vec123 : List Value := [.Int64 10, .Int64 20, .Int64 30]

/-! ## The results of the binds of `Fn.Invoke` -/

/-- The results of the calls `fnScope.Bind(fn.Args[idx], argVal)` of the binding loop of
`Fn.Invoke`, in order (the source discards them).  The loop is that of `Fn.bindLoop`:
it stops at an access out of range. -/
def Fn.bindLog (fn : Fn) (args : List Value) :
    Nat → List String → MapScope → List (Except Error Unit)
  | _, [], _ => []
  | idx, name :: rest, fnScope =>
    match fn.argVal args idx with
    | none => []
    | some argVal =>
      (fnScope.Bind name argVal).1
        :: Fn.bindLog fn args (idx + 1) rest (fnScope.Bind name argVal).2

/-- A parameter name that `Bind` accepts in a fresh function scope, whose current
namespace is `user`: unqualified, or qualified with the namespace `user`. -/
def bindableName (name : String) : Prop :=
  sepCount name = 0 ∨ (sepCount name = 1 ∧ nsPart name = "user")

/-- The function made by `parseArgSpec` from the parameter spec `[foo/x]`. -/
def fnQualified : Fn := (fnEmpty.parseArgSpec (.Vector [.Symbol "foo/x"])).2

/-- The variadic function of the single parameter `rest`, without body. -/
def fnOnlyRest : Fn := .mk ["rest"] true none none

/-! # Theorems -/

/-! ## Symbols and scopes -/

theorem strSplit_eq (sep : Char) (l : List Char) :
    strSplit sep l =
      l.takeWhile (fun c => c != sep) ::
        (match l.dropWhile (fun c => c != sep) with
         | [] => []
         | _ :: rest => strSplit sep rest) := by
  induction l with
  | nil => rfl
  | cons c cs ih =>
    by_cases hc : c = sep
    · subst hc
      simp [strSplit, List.takeWhile, List.dropWhile]
    · have hne : (c != sep) = true := by simpa using hc
      rw [strSplit, if_neg hc, ih]
      simp [List.takeWhile, List.dropWhile, hne]

theorem strSplit_length (sep : Char) (l : List Char) :
    (strSplit sep l).length = l.count sep + 1 := by
  induction l with
  | nil => rfl
  | cons c cs ih =>
    by_cases hc : c = sep
    · subst hc
      simp [strSplit, ih]
    · rw [strSplit, if_neg hc]
      have hcount : (c :: cs).count sep = cs.count sep := by
        rw [List.count_cons]
        simp [hc]
      rw [hcount, ← ih]
      cases h : strSplit sep cs with
      | nil => rw [h] at ih; simp at ih
      | cons p ps => simp

theorem strSplit_of_count_zero (sep : Char) (l : List Char) (h : l.count sep = 0) :
    strSplit sep l = [l] := by
  induction l with
  | nil => rfl
  | cons c cs ih =>
    have hc : c ≠ sep := by
      intro hc
      subst hc
      simp at h
    have hcs : cs.count sep = 0 := by
      rw [List.count_cons] at h
      omega
    rw [strSplit, if_neg hc, ih hcs]

theorem count_dropWhile (sep : Char) (l : List Char) :
    ((l.dropWhile (fun c => c != sep)).drop 1).count sep + (if sep ∈ l then 1 else 0)
      = l.count sep := by
  induction l with
  | nil => rfl
  | cons c cs ih =>
    by_cases hc : c = sep
    · subst hc
      simp [List.dropWhile]
    · have hne : (c != sep) = true := by simpa using hc
      have hmem : (sep ∈ c :: cs) ↔ sep ∈ cs := by
        simp [List.mem_cons, Ne.symm hc]
      have hcount : (c :: cs).count sep = cs.count sep := by
        rw [List.count_cons]
        simp [hc]
      simp only [List.dropWhile, hne, hmem, hcount]
      exact ih

theorem stringsSplit_length (symbol : String) :
    (stringsSplit symbol).length = sepCount symbol + 1 := by
  simp [stringsSplit, sepCount, strSplit_length]

theorem splitSymbol_unqualified (scope : MapScope) (symbol : String)
    (h : sepCount symbol = 0) :
    scope.splitSymbol symbol = .ok { NS := scope.curNS, Name := symbol } := by
  simp [MapScope.splitSymbol, stringsSplit_length, h]

theorem splitSymbol_invalid (scope : MapScope) (symbol : String)
    (h : 2 ≤ sepCount symbol) :
    scope.splitSymbol symbol = .error (.invalidSymbol symbol) := by
  unfold MapScope.splitSymbol
  simp only [stringsSplit_length]
  rw [if_neg (by omega), if_pos (by omega)]

theorem splitSymbol_qualified (scope : MapScope) (symbol : String)
    (h : sepCount symbol = 1) :
    scope.splitSymbol symbol = .ok { NS := nsPart symbol, Name := namePart symbol } := by
  unfold MapScope.splitSymbol
  simp only [stringsSplit_length]
  rw [if_neg (by omega), if_neg (by omega)]
  have hmem : nsSeparator ∈ symbol.data := by
    apply List.count_pos_iff.1
    unfold sepCount at h
    omega
  have hrest := count_dropWhile nsSeparator symbol.data
  rw [if_pos hmem] at hrest
  unfold sepCount at h
  have hzero : ((symbol.data.dropWhile (fun c => c != nsSeparator)).drop 1).count nsSeparator = 0 := by
    omega
  have hsplit : stringsSplit symbol = [nsPart symbol, namePart symbol] := by
    unfold stringsSplit nsPart namePart
    rw [strSplit_eq]
    cases hd : symbol.data.dropWhile (fun c => c != nsSeparator) with
    | nil =>
      have := List.dropWhile_eq_nil_iff.1 hd nsSeparator hmem
      simp at this
    | cons d rest =>
      rw [hd] at hzero
      simp only [List.drop_succ_cons, List.drop_zero] at hzero
      simp only [List.map_cons, List.drop_succ_cons, List.drop_zero]
      rw [strSplit_of_count_zero _ _ hzero]
      simp
  rw [hsplit]
  rfl

/-! ## Dispatch by arity -/

theorem selectMethodLoop_eq_find (args : List Value) (ms : List Fn) :
    selectMethodLoop args ms = ms.find? (fun fn => fn.matchArity args) := by
  induction ms with
  | nil => rfl
  | cons m ms ih =>
    by_cases hm : m.matchArity args = true
    · simp [selectMethodLoop, List.find?_cons, hm]
    · simp [selectMethodLoop, List.find?_cons, hm, ih]

theorem matchArity_iff (fn : Fn) (args : List Value) :
    fn.matchArity args = true ↔
      if fn.Variadic = true then fn.Args.length ≤ args.length + 1
      else args.length = fn.Args.length := by
  unfold Fn.matchArity
  cases fn.Variadic
  · simp only [Bool.false_eq_true, if_false, decide_eq_true_eq]
    constructor <;> intro h <;> omega
  · simp only [if_true, decide_eq_true_eq]
    constructor <;> intro h <;> omega

theorem selectMethod_ok_iff (multiFn : MultiFn) (args : List Value) (fn : Fn) :
    multiFn.selectMethod args = .ok fn ↔
      ∃ before after, multiFn.Methods = before ++ fn :: after ∧
        fn.matchArity args = true ∧ ∀ m ∈ before, m.matchArity args = false := by
  unfold MultiFn.selectMethod
  rw [selectMethodLoop_eq_find]
  cases hfind : multiFn.Methods.find? (fun fn => fn.matchArity args) with
  | none =>
    simp only [reduceCtorEq, false_iff]
    rintro ⟨before, after, hms, hfn, -⟩
    rw [List.find?_eq_none] at hfind
    exact hfind fn (by rw [hms]; simp) hfn
  | some found =>
    rw [List.find?_eq_some] at hfind
    obtain ⟨hfound, as, bs, hms, has⟩ := hfind
    constructor
    · intro h
      cases h
      exact ⟨as, bs, hms, hfound, fun m hm => by simpa using has m hm⟩
    · rintro ⟨before, after, hms2, hfn, hbefore⟩
      have h2 : multiFn.Methods.find? (fun fn => fn.matchArity args) = some fn := by
        rw [List.find?_eq_some]
        exact ⟨hfn, before, after, hms2, fun m hm => by simp [hbefore m hm]⟩
      have h1 : multiFn.Methods.find? (fun fn => fn.matchArity args) = some found := by
        rw [List.find?_eq_some]
        exact ⟨hfound, as, bs, hms, has⟩
      rw [h1] at h2
      cases h2
      rfl

theorem selectMethod_error_iff (multiFn : MultiFn) (args : List Value) (err : Error) :
    multiFn.selectMethod args = .error err ↔
      err = .wrongArgCount args.length multiFn.Name ∧
        ∀ m ∈ multiFn.Methods, m.matchArity args = false := by
  unfold MultiFn.selectMethod
  rw [selectMethodLoop_eq_find]
  cases hfind : multiFn.Methods.find? (fun fn => fn.matchArity args) with
  | none =>
    rw [List.find?_eq_none] at hfind
    constructor
    · intro h
      cases h
      exact ⟨rfl, fun m hm => by simpa using hfind m hm⟩
    · rintro ⟨rfl, -⟩
      rfl
  | some found =>
    simp only [reduceCtorEq, false_iff]
    rintro ⟨-, hall⟩
    have hmem := List.mem_of_find?_eq_some hfind
    have hp := List.find?_some hfind
    rw [hall found hmem] at hp
    exact absurd hp (by decide)

/-- C1: `MultiFn.selectMethod` returns the first method, in `Methods` order, whose arity
matches the argument count (equal to the number of parameters for a fixed-arity method,
at least the number of parameters minus one for a variadic method), and returns the
arity error carrying the argument count and the name exactly when no method matches.
With fixed methods of one and two parameters and one variadic method of minimum three,
in any order, a call without arguments fails and every call with three or more
arguments selects the variadic method. -/
theorem selectMethod_first_matching_arity :
    (∀ (fn : Fn) (args : List Value), fn.matchArity args = true ↔
        if fn.Variadic = true then fn.Args.length ≤ args.length + 1
        else args.length = fn.Args.length) ∧
    (∀ (multiFn : MultiFn) (args : List Value) (fn : Fn),
        multiFn.selectMethod args = .ok fn ↔
          ∃ before after, multiFn.Methods = before ++ fn :: after ∧
            fn.matchArity args = true ∧ ∀ m ∈ before, m.matchArity args = false) ∧
    (∀ (multiFn : MultiFn) (args : List Value),
        ((∃ err, multiFn.selectMethod args = .error err) ↔
          ∀ m ∈ multiFn.Methods, m.matchArity args = false) ∧
        ∀ err, multiFn.selectMethod args = .error err →
          err = .wrongArgCount args.length multiFn.Name) ∧
    (∀ (name : String) (isM : Bool) (f1 f2 fv : Fn) (methods : List Fn),
        f1.Variadic = false → f1.Args.length = 1 →
        f2.Variadic = false → f2.Args.length = 2 →
        fv.Variadic = true → fv.Args.length = 4 →
        methods.Perm [f1, f2, fv] →
        MultiFn.selectMethod (.mk name isM methods) [] = .error (.wrongArgCount 0 name) ∧
        ∀ args : List Value, 3 ≤ args.length →
          MultiFn.selectMethod (.mk name isM methods) args = .ok fv) := by
  refine ⟨matchArity_iff, selectMethod_ok_iff, ?_, ?_⟩
  · intro multiFn args
    constructor
    · constructor
      · rintro ⟨err, h⟩
        exact ((selectMethod_error_iff multiFn args err).1 h).2
      · intro h
        exact ⟨_, (selectMethod_error_iff multiFn args _).2 ⟨rfl, h⟩⟩
    · intro err h
      exact ((selectMethod_error_iff multiFn args err).1 h).1
  · intro name isM f1 f2 fv methods h1v h1 h2v h2 hvv hv hperm
    have hmem : ∀ m, m ∈ methods ↔ m = f1 ∨ m = f2 ∨ m = fv := by
      intro m
      rw [hperm.mem_iff]
      simp
    constructor
    · rw [selectMethod_error_iff]
      refine ⟨rfl, ?_⟩
      intro m hm
      have hm2 : m = f1 ∨ m = f2 ∨ m = fv := (hmem m).1 hm
      rcases hm2 with rfl | rfl | rfl
      · cases hb : m.matchArity [] with
        | false => rfl
        | true => rw [matchArity_iff] at hb; simp [h1v, h1] at hb
      · cases hb : m.matchArity [] with
        | false => rfl
        | true => rw [matchArity_iff] at hb; simp [h2v, h2] at hb
      · cases hb : m.matchArity [] with
        | false => rfl
        | true => rw [matchArity_iff] at hb; simp [hvv, hv] at hb
    · intro args hargs
      rw [selectMethod_ok_iff]
      have hfv : fv ∈ methods := (hmem fv).2 (Or.inr (Or.inr rfl))
      obtain ⟨before, after, hsplit⟩ := List.append_of_mem hfv
      have hothers : ∀ m ∈ methods, m = fv ∨ m.matchArity args = false := by
        intro m hm
        have hm2 : m = f1 ∨ m = f2 ∨ m = fv := (hmem m).1 hm
        rcases hm2 with rfl | rfl | rfl
        · right
          cases hb : m.matchArity args with
          | false => rfl
          | true => rw [matchArity_iff] at hb; simp [h1v, h1] at hb; omega
        · right
          cases hb : m.matchArity args with
          | false => rfl
          | true => rw [matchArity_iff] at hb; simp [h2v, h2] at hb; omega
        · left; rfl
      have hfvm : fv.matchArity args = true := by
        rw [matchArity_iff]; simp [hvv, hv]; omega
      -- the first method that matches is the variadic one
      have hfind : methods.find? (fun fn => fn.matchArity args) = some fv := by
        have hsome : (methods.find? (fun fn => fn.matchArity args)).isSome = true := by
          rw [List.find?_isSome]
          exact ⟨fv, hfv, hfvm⟩
        obtain ⟨found, hfound⟩ := Option.isSome_iff_exists.1 hsome
        have hin := List.mem_of_find?_eq_some hfound
        have hp := List.find?_some hfound
        rcases hothers found hin with rfl | hno
        · exact hfound
        · simp only at hp
          rw [hno] at hp
          exact absurd hp (by decide)
      rw [List.find?_eq_some] at hfind
      obtain ⟨-, as, bs, hms, has⟩ := hfind
      exact ⟨as, bs, hms, hfvm, fun m hm => by simpa using has m hm⟩

theorem selectMethod_first_matching_arity_witness :
    MultiFn.selectMethod
        (.mk "f" false
          [.mk ["a"] false none none, .mk ["a", "b", "c", "rest"] true none none,
            .mk ["a", "b"] false none none])
        [.Nil, .Nil, .Nil, .Nil]
      = .ok (.mk ["a", "b", "c", "rest"] true none none) :=
  (selectMethod_first_matching_arity.2.2.2 "f" false
      (.mk ["a"] false none none) (.mk ["a", "b"] false none none)
      (.mk ["a", "b", "c", "rest"] true none none)
      [.mk ["a"] false none none, .mk ["a", "b", "c", "rest"] true none none,
        .mk ["a", "b"] false none none]
      rfl rfl rfl rfl rfl rfl
      ((List.Perm.refl _).cons _ |>.trans ((List.Perm.swap _ _ _).cons _ |>.trans (List.Perm.refl _)))).2
    [.Nil, .Nil, .Nil, .Nil] (by decide)

/-! ## Binding and resolution -/

theorem splitSymbol_congr (a b : MapScope) (symbol : String) (h : a.curNS = b.curNS) :
    a.splitSymbol symbol = b.splitSymbol symbol := by
  unfold MapScope.splitSymbol
  rw [h]

theorem Bind_unqualified (scope : MapScope) (symbol : String) (v : Value)
    (h : sepCount symbol = 0) :
    scope.Bind symbol v =
      (.ok (), .mk scope.parent
        (Function.update scope.bindings { NS := scope.curNS, Name := symbol } (some v))
        scope.curNS) := by
  unfold MapScope.Bind
  rw [splitSymbol_unqualified scope symbol h]
  simp [MapScope.CurrentNS]

theorem Bind_qualified (scope : MapScope) (symbol : String) (v : Value)
    (h : sepCount symbol = 1) :
    scope.Bind symbol v =
      if nsPart symbol ≠ scope.curNS then (.error .bindOutsideNS, scope)
      else (.ok (), .mk scope.parent
        (Function.update scope.bindings { NS := nsPart symbol, Name := namePart symbol } (some v))
        scope.curNS) := by
  unfold MapScope.Bind
  rw [splitSymbol_qualified scope symbol h]
  rfl

theorem Bind_invalid (scope : MapScope) (symbol : String) (v : Value)
    (h : 2 ≤ sepCount symbol) :
    scope.Bind symbol v = (.error (.invalidSymbol symbol), scope) := by
  unfold MapScope.Bind
  rw [splitSymbol_invalid scope symbol h]

theorem Bind_parent (scope : MapScope) (symbol : String) (v : Value) :
    (scope.Bind symbol v).2.parent = scope.parent := by
  unfold MapScope.Bind
  cases scope.splitSymbol symbol with
  | error err => rfl
  | ok k =>
    by_cases hk : k.NS ≠ scope.CurrentNS
    · simp [hk]
    · simp only [hk, if_false]
      rfl

theorem Bind_curNS (scope : MapScope) (symbol : String) (v : Value) :
    (scope.Bind symbol v).2.curNS = scope.curNS := by
  unfold MapScope.Bind
  cases scope.splitSymbol symbol with
  | error err => rfl
  | ok k =>
    by_cases hk : k.NS ≠ scope.CurrentNS
    · simp [hk]
    · simp only [hk, if_false]
      rfl

theorem Bind_ok_iff (scope : MapScope) (symbol : String) (v : Value) :
    (scope.Bind symbol v).1 = .ok () ↔
      sepCount symbol = 0 ∨ (sepCount symbol = 1 ∧ nsPart symbol = scope.CurrentNS) := by
  rcases Nat.lt_or_ge (sepCount symbol) 1 with h0 | h1
  · have h : sepCount symbol = 0 := by omega
    rw [Bind_unqualified scope symbol v h]
    simp [h]
  · rcases Nat.lt_or_ge (sepCount symbol) 2 with h1' | h2
    · have h : sepCount symbol = 1 := by omega
      rw [Bind_qualified scope symbol v h]
      by_cases hns : nsPart symbol = scope.curNS
      · simp [h, hns, MapScope.CurrentNS]
      · simp [h, hns, MapScope.CurrentNS]
    · rw [Bind_invalid scope symbol v h2]
      simp
      omega

theorem Bind_ok_scope (scope : MapScope) (symbol : String) (v : Value)
    (h : (scope.Bind symbol v).1 = .ok ()) :
    (scope.Bind symbol v).2 =
      .mk scope.parent (Function.update scope.bindings (scope.keyOf symbol) (some v))
        scope.curNS := by
  rcases (Bind_ok_iff scope symbol v).1 h with h0 | ⟨h1, hns⟩
  · rw [Bind_unqualified scope symbol v h0]
    simp [MapScope.keyOf, h0, MapScope.CurrentNS]
  · rw [Bind_qualified scope symbol v h1]
    simp [MapScope.keyOf, h1, hns, MapScope.CurrentNS]

theorem Bind_error_scope (scope : MapScope) (symbol : String) (v : Value)
    (h : (scope.Bind symbol v).1 ≠ .ok ()) :
    (scope.Bind symbol v).2 = scope := by
  unfold MapScope.Bind at h ⊢
  cases hsplit : scope.splitSymbol symbol with
  | error err => rfl
  | ok k =>
    rw [hsplit] at h
    by_cases hk : k.NS ≠ scope.CurrentNS
    · simp [hk]
    · simp [hk] at h

theorem splitSymbol_ok_keyOf (scope : MapScope) (symbol : String) (k : nsSymbol)
    (h : scope.splitSymbol symbol = .ok k) : k = scope.keyOf symbol := by
  rcases Nat.lt_or_ge (sepCount symbol) 1 with h0 | h1
  · have h0' : sepCount symbol = 0 := by omega
    rw [splitSymbol_unqualified scope symbol h0'] at h
    cases h
    simp [MapScope.keyOf, h0', MapScope.CurrentNS]
  · rcases Nat.lt_or_ge (sepCount symbol) 2 with h1' | h2
    · have h1'' : sepCount symbol = 1 := by omega
      rw [splitSymbol_qualified scope symbol h1''] at h
      cases h
      simp [MapScope.keyOf, h1'']
    · rw [splitSymbol_invalid scope symbol h2] at h
      cases h

/-- C7: for every scope, symbol text and value, `Bind` fails exactly when the symbol has
more than one namespace separator or carries an explicit namespace different from the
current namespace of the scope; on failure the scope (bindings table, current namespace)
is unchanged; on success the table changes only at the key (namespace, name) of the
symbol, which now maps to the value, and the current namespace and parent are kept. -/
theorem bind_fails_exactly_outside_namespace (scope : MapScope) (symbol : String) (v : Value) :
    ((∃ err, (scope.Bind symbol v).1 = .error err) ↔
        (1 < sepCount symbol ∨ (sepCount symbol = 1 ∧ nsPart symbol ≠ scope.CurrentNS))) ∧
    ((∃ err, (scope.Bind symbol v).1 = .error err) → (scope.Bind symbol v).2 = scope) ∧
    ((scope.Bind symbol v).1 = .ok () →
        (scope.Bind symbol v).2.bindings (scope.keyOf symbol) = some v ∧
        (∀ k, k ≠ scope.keyOf symbol →
          (scope.Bind symbol v).2.bindings k = scope.bindings k) ∧
        (scope.Bind symbol v).2.CurrentNS = scope.CurrentNS ∧
        (scope.Bind symbol v).2.Parent = scope.Parent) := by
  have hcases : (∃ err, (scope.Bind symbol v).1 = .error err) ↔
      (scope.Bind symbol v).1 ≠ .ok () := by
    cases (scope.Bind symbol v).1 with
    | error err => simp
    | ok u => simp
  refine ⟨?_, ?_, ?_⟩
  · rw [hcases, Ne, Bind_ok_iff]
    constructor
    · intro h
      by_contra hcon
      apply h
      rcases Nat.lt_or_ge (sepCount symbol) 1 with h0 | h1
      · left; omega
      · right
        refine ⟨by omega, ?_⟩
        by_contra hns
        exact hcon (Or.inr ⟨by omega, hns⟩)
    · rintro (h | ⟨h1, hns⟩) (h0 | ⟨h1', hns'⟩)
      · omega
      · omega
      · omega
      · exact hns hns'
  · intro h
    exact Bind_error_scope scope symbol v (hcases.1 h)
  · intro h
    rw [Bind_ok_scope scope symbol v h]
    refine ⟨?_, ?_, rfl, rfl⟩
    · simp [MapScope.bindings]
    · intro k hk
      simp [MapScope.bindings, Function.update, hk]

theorem bind_fails_exactly_outside_namespace_witness :
    (scopeFoo.Bind "foo/x" (.Int64 7)).2.bindings { NS := "foo", Name := "x" }
      = some (.Int64 7) :=
  ((bind_fails_exactly_outside_namespace scopeFoo "foo/x" (.Int64 7)).2.2 rfl).1

theorem Resolve_eq (scope : MapScope) (symbol : String) :
    scope.Resolve symbol =
      match scope.splitSymbol (resolveText symbol) with
      | .error err => .error err
      | .ok nsSym =>
        match scope.bindings nsSym with
        | some v => .ok v
        | none =>
          match scope.parent with
          | some p => p.Resolve (resolveText symbol)
          | none => .error (.unresolved (resolveText symbol)) := by
  cases scope with
  | mk parent bindings curNS =>
    cases parent with
    | none => rw [MapScope.Resolve.eq_2]; rfl
    | some p => rw [MapScope.Resolve.eq_1]; rfl

theorem Resolve_of_split_error (scope : MapScope) (symbol : String) (err : Error)
    (hkey : scope.splitSymbol (resolveText symbol) = .error err) :
    scope.Resolve symbol = .error err := by
  rw [Resolve_eq, hkey]

theorem Resolve_of_found (scope : MapScope) (symbol : String) (k : nsSymbol) (v : Value)
    (hkey : scope.splitSymbol (resolveText symbol) = .ok k)
    (hfound : scope.bindings k = some v) : scope.Resolve symbol = .ok v := by
  rw [Resolve_eq, hkey]
  simp only [hfound]

theorem Resolve_of_miss_parent (scope p : MapScope) (symbol : String) (k : nsSymbol)
    (hkey : scope.splitSymbol (resolveText symbol) = .ok k)
    (hmiss : scope.bindings k = none) (hp : scope.parent = some p) :
    scope.Resolve symbol = p.Resolve (resolveText symbol) := by
  rw [Resolve_eq, hkey]
  simp only [hmiss, hp]

theorem Resolve_of_miss_root (scope : MapScope) (symbol : String) (k : nsSymbol)
    (hkey : scope.splitSymbol (resolveText symbol) = .ok k)
    (hmiss : scope.bindings k = none) (hp : scope.parent = none) :
    scope.Resolve symbol = .error (.unresolved (resolveText symbol)) := by
  rw [Resolve_eq, hkey]
  simp only [hmiss, hp]
theorem resolveText_idem (symbol : String) :
    resolveText (resolveText symbol) = resolveText symbol := by
  unfold resolveText
  by_cases h : symbol = "ns"
  · simp [h]
  · simp [h]

theorem Resolve_resolveText (scope : MapScope) (symbol : String) :
    scope.Resolve (resolveText symbol) = scope.Resolve symbol := by
  rw [Resolve_eq scope (resolveText symbol), Resolve_eq scope symbol, resolveText_idem]

theorem sepCount_user_ns : sepCount "user/ns" = 1 := by decide

theorem sepCount_ns : sepCount "ns" = 0 := by decide

theorem splitSymbol_user_ns (scope : MapScope) :
    scope.splitSymbol "user/ns" = .ok { NS := "user", Name := "ns" } := by
  rw [splitSymbol_qualified scope "user/ns" sepCount_user_ns]
  rfl

theorem NewScope_hasNS (parent : Option MapScope) : (NewScope parent).hasNS := by
  intro h
  have h2 : (NewScope parent).bindings { NS := "user", Name := "ns" } = some ValueOfSwitchNS :=
    rfl
  rw [h2] at h
  cases h

theorem Bind_hasNS (scope : MapScope) (symbol : String) (v : Value) (h : scope.hasNS) :
    (scope.Bind symbol v).2.hasNS := by
  by_cases hok : (scope.Bind symbol v).1 = .ok ()
  · rw [Bind_ok_scope scope symbol v hok]
    unfold MapScope.hasNS at h ⊢
    simp only [MapScope.bindings, Function.update]
    split
    · simp
    · exact h
  · rw [Bind_error_scope scope symbol v hok]
    exact h

theorem SwitchNS_hasNS (scope : MapScope) (sym : String) (h : scope.hasNS) :
    (scope.SwitchNS sym).2.hasNS := by
  unfold MapScope.SwitchNS
  apply Bind_hasNS
  exact h

/-- The claim C8 fails at the symbol `ns` outside namespace `user`: in a scope switched
to `foo`, `Bind("ns", 1)` succeeds (under the key `foo/ns`) and `Resolve("ns")` right
after returns the value bound to `user/ns`, not 1. -/
theorem resolve_after_bind_ns_counterexample :
    (scopeFoo.Bind "ns" (.Int64 1)).1 = .ok () ∧
    (scopeFoo.Bind "ns" (.Int64 1)).2.Resolve "ns" = .ok (.GoFunc "SwitchNS") ∧
    (scopeFoo.Bind "ns" (.Int64 1)).2.Resolve "ns" ≠ .ok (.Int64 1) := by
  refine ⟨rfl, rfl, ?_⟩
  intro h
  have h2 : (scopeFoo.Bind "ns" (.Int64 1)).2.Resolve "ns" = .ok (.GoFunc "SwitchNS") := rfl
  rw [h2] at h
  cases h

/-- C8 (amended): for every scope, symbol text `s` and value `v`, where `s` is not the
text `ns` or the current namespace is `user`: if `Bind(s, v)` succeeds then `Resolve(s)`
on the scope right after succeeds and returns `v`. -/
theorem resolve_after_bind (scope : MapScope) (symbol : String) (v : Value)
    (hns : symbol ≠ "ns" ∨ scope.CurrentNS = "user")
    (hbind : (scope.Bind symbol v).1 = .ok ()) :
    (scope.Bind symbol v).2.Resolve symbol = .ok v := by
  rw [Bind_ok_scope scope symbol v hbind]
  apply Resolve_of_found _ _ (scope.keyOf symbol)
  · by_cases hs : symbol = "ns"
    · subst hs
      have hcur : scope.CurrentNS = "user" := by
        rcases hns with h | h
        · exact absurd rfl h
        · exact h
      rw [show resolveText "ns" = "user/ns" from rfl, splitSymbol_user_ns]
      simp [MapScope.keyOf, sepCount_ns, hcur]
    · rw [show resolveText symbol = symbol by simp [resolveText, hs]]
      rcases (Bind_ok_iff scope symbol v).1 hbind with h0 | ⟨h1, _⟩
      · rw [splitSymbol_unqualified _ _ h0]
        simp [MapScope.keyOf, h0, MapScope.CurrentNS, MapScope.curNS]
      · rw [splitSymbol_qualified _ _ h1]
        simp [MapScope.keyOf, h1]
  · simp [MapScope.bindings]

theorem resolve_after_bind_witness :
    (scopeFoo.Bind "foo/x" (.Int64 7)).2.Resolve "foo/x" = .ok (.Int64 7) :=
  resolve_after_bind scopeFoo "foo/x" (.Int64 7) (Or.inl (by decide)) rfl

theorem hasNS_no_miss (scope : MapScope) (symbol : String) (k : nsSymbol)
    (hinv : scope.hasNS) (hkey : scope.splitSymbol (resolveText symbol) = .ok k)
    (hmiss : scope.bindings k = none) : resolveText symbol = symbol := by
  by_cases hs : symbol = "ns"
  · subst hs
    rw [show resolveText "ns" = "user/ns" from rfl, splitSymbol_user_ns] at hkey
    cases hkey
    exact absurd hmiss hinv
  · simp [resolveText, hs]

theorem chain_root (bindings : nsSymbol → Option Value) (curNS : String) :
    (MapScope.mk none bindings curNS).chain = [MapScope.mk none bindings curNS] := by
  rw [MapScope.chain.eq_2]

theorem chain_child (p : MapScope) (bindings : nsSymbol → Option Value) (curNS : String) :
    (MapScope.mk (some p) bindings curNS).chain
      = MapScope.mk (some p) bindings curNS :: p.chain := by
  rw [MapScope.chain.eq_1]

theorem mem_chain_self (scope : MapScope) : scope ∈ scope.chain := by
  cases scope with
  | mk parent bindings curNS =>
    cases parent with
    | none => simp [chain_root]
    | some p => simp [chain_child]

theorem resolve_fails_of_unbound :
    ∀ (scope : MapScope) (symbol : String),
      (∀ sc ∈ scope.chain, ∀ k, sc.splitSymbol (resolveText symbol) = .ok k →
        sc.bindings k = none) →
      ∃ err, scope.Resolve symbol = .error err
  | .mk parent bindings curNS, symbol, h => by
    have hself := mem_chain_self (MapScope.mk parent bindings curNS)
    cases hsplit : (MapScope.mk parent bindings curNS).splitSymbol (resolveText symbol) with
    | error err => exact ⟨err, Resolve_of_split_error _ _ _ hsplit⟩
    | ok k =>
      have hnone := h _ hself k hsplit
      cases parent with
      | none => exact ⟨_, Resolve_of_miss_root _ _ k hsplit hnone rfl⟩
      | some p =>
        rw [Resolve_of_miss_parent _ p _ k hsplit hnone rfl, Resolve_resolveText]
        apply resolve_fails_of_unbound p symbol
        intro sc hsc
        apply h sc
        simp [chain_child, hsc]

/-- C9: for every scope and every symbol with at most one separator that has no binding
in the scope under the key the scope looks up: if the scope has a parent, `Resolve` on
the scope returns exactly what `Resolve` on the parent returns for the symbol, so a
symbol bound only in the parent resolves from the child to the value the parent holds;
if the scope has no parent, `Resolve` fails with the resolution error naming the text
looked up, which is the symbol itself in every scope that holds the binding `user/ns`
made by `NewScope` (there the symbol `ns` never misses).  A symbol bound in no scope of
the parent chain always fails. -/
theorem resolve_delegates_to_parent (child : MapScope) (symbol : String) (k : nsSymbol)
    (hkey : child.splitSymbol (resolveText symbol) = .ok k)
    (hmiss : child.bindings k = none) :
    (∀ p, child.Parent = some p → child.Resolve symbol = p.Resolve symbol) ∧
    (∀ p kp v, child.Parent = some p →
        p.splitSymbol (resolveText symbol) = .ok kp → p.bindings kp = some v →
        child.Resolve symbol = .ok v) ∧
    (child.Parent = none →
        child.Resolve symbol = .error (.unresolved (resolveText symbol))) ∧
    (child.Parent = none → child.hasNS →
        child.Resolve symbol = .error (.unresolved symbol)) ∧
    (∀ (scope : MapScope) (s : String),
      (∀ sc ∈ scope.chain, ∀ key, sc.splitSymbol (resolveText s) = .ok key →
        sc.bindings key = none) →
      ∃ err, scope.Resolve s = .error err) := by
  refine ⟨?_, ?_, ?_, ?_, resolve_fails_of_unbound⟩
  · intro p hp
    rw [Resolve_of_miss_parent child p symbol k hkey hmiss hp, Resolve_resolveText]
  · intro p kp v hp hpkey hpfound
    rw [Resolve_of_miss_parent child p symbol k hkey hmiss hp, Resolve_resolveText]
    exact Resolve_of_found p symbol kp v hpkey hpfound
  · intro hp
    exact Resolve_of_miss_root child symbol k hkey hmiss hp
  · intro hp hinv
    rw [Resolve_of_miss_root child symbol k hkey hmiss hp,
      hasNS_no_miss child symbol k hinv hkey hmiss]

theorem resolve_delegates_to_parent_witness :
    (NewScope (some scopeX1)).Resolve "x" = .ok (.Int64 1) :=
  (resolve_delegates_to_parent (NewScope (some scopeX1)) "x" { NS := "user", Name := "x" }
    rfl rfl).2.1 scopeX1 { NS := "user", Name := "x" } (.Int64 1) rfl rfl rfl

theorem findSome?_congr_mem {α β : Type} (f g : α → Option β) (l : List α)
    (h : ∀ a ∈ l, f a = g a) : l.findSome? f = l.findSome? g := by
  induction l with
  | nil => rfl
  | cons a l ih =>
    have ha : f a = g a := h a (by simp)
    have hl : ∀ b ∈ l, f b = g b := fun b hb => h b (by simp [hb])
    simp only [List.findSome?_cons, ha, ih hl]

theorem resolve_unqualified_chain :
    ∀ (scope : MapScope) (symbol : String), sepCount symbol = 0 → symbol ≠ "ns" →
      scope.Resolve symbol =
        match scope.chain.findSome? (fun sc => sc.bindings { NS := sc.CurrentNS, Name := symbol }) with
        | some v => .ok v
        | none => .error (.unresolved symbol)
  | .mk parent bindings curNS, symbol, hs, hns => by
    have htext : resolveText symbol = symbol := by simp [resolveText, hns]
    have hkey : (MapScope.mk parent bindings curNS).splitSymbol (resolveText symbol)
        = .ok { NS := curNS, Name := symbol } := by
      rw [htext, splitSymbol_unqualified _ _ hs]
      rfl
    cases hb : bindings { NS := curNS, Name := symbol } with
    | some v =>
      rw [Resolve_of_found _ _ _ v hkey hb]
      have hhead : (MapScope.mk parent bindings curNS).chain
          = MapScope.mk parent bindings curNS ::
              (MapScope.mk parent bindings curNS).chain.tail := by
        cases parent with
        | none => simp [chain_root]
        | some p => simp [chain_child]
      rw [hhead]
      simp [List.findSome?_cons, MapScope.bindings, MapScope.CurrentNS, MapScope.curNS, hb]
    | none =>
      cases parent with
      | none =>
        rw [Resolve_of_miss_root _ _ _ hkey hb rfl, htext, chain_root]
        simp [List.findSome?_cons, MapScope.bindings, MapScope.CurrentNS, MapScope.curNS, hb]
      | some p =>
        rw [Resolve_of_miss_parent _ p _ _ hkey hb rfl, htext, chain_child,
          resolve_unqualified_chain p symbol hs hns]
        simp [List.findSome?_cons, MapScope.bindings, MapScope.CurrentNS, MapScope.curNS, hb]

theorem resolve_ns_chain :
    ∀ scope : MapScope,
      scope.Resolve "ns" =
        match scope.chain.findSome? (fun sc => sc.bindings { NS := "user", Name := "ns" }) with
        | some v => .ok v
        | none => .error (.unresolved "user/ns")
  | .mk parent bindings curNS => by
    have hkey : (MapScope.mk parent bindings curNS).splitSymbol (resolveText "ns")
        = .ok { NS := "user", Name := "ns" } := splitSymbol_user_ns _
    cases hb : bindings { NS := "user", Name := "ns" } with
    | some v =>
      rw [Resolve_of_found _ _ _ v hkey hb]
      have hhead : (MapScope.mk parent bindings curNS).chain
          = MapScope.mk parent bindings curNS ::
              (MapScope.mk parent bindings curNS).chain.tail := by
        cases parent with
        | none => simp [chain_root]
        | some p => simp [chain_child]
      rw [hhead]
      simp [List.findSome?_cons, MapScope.bindings, hb]
    | none =>
      cases parent with
      | none =>
        rw [Resolve_of_miss_root _ _ _ hkey hb rfl, chain_root]
        simp [List.findSome?_cons, MapScope.bindings, hb]
        rfl
      | some p =>
        rw [Resolve_of_miss_parent _ p _ _ hkey hb rfl, Resolve_resolveText, chain_child,
          resolve_ns_chain p]
        simp [List.findSome?_cons, MapScope.bindings, hb]

/-- The claim C10 fails in two ways.  When the scopes of a chain are in different
namespaces: the child `childFoo` has current namespace `foo`, neither it nor its parent
`scopeX1` (the whole chain) holds a binding under the key `foo/x`, and still
`Resolve("x")` on the child succeeds, with the value the parent holds under `user/x`.
At the symbol `ns`: the root scope `scopeFoo` has current namespace `foo` and no binding
under the key `foo/ns`, and still `Resolve("ns")` succeeds, with the value bound under
`user/ns`. -/
theorem unqualified_lookup_other_namespace_counterexample :
    childFoo.CurrentNS = "foo" ∧
    childFoo.Parent = some scopeX1 ∧ scopeX1.Parent = none ∧
    childFoo.bindings { NS := "foo", Name := "x" } = none ∧
    scopeX1.bindings { NS := "foo", Name := "x" } = none ∧
    scopeX1.bindings { NS := "user", Name := "x" } = some (.Int64 1) ∧
    childFoo.Resolve "x" = .ok (.Int64 1) ∧
    scopeFoo.CurrentNS = "foo" ∧ scopeFoo.Parent = none ∧
    scopeFoo.bindings { NS := "foo", Name := "ns" } = none ∧
    scopeFoo.bindings { NS := "user", Name := "ns" } = some (.GoFunc "SwitchNS") ∧
    scopeFoo.Resolve "ns" = .ok (.GoFunc "SwitchNS") :=
  ⟨rfl, rfl, rfl, rfl, rfl, rfl, rfl, rfl, rfl, rfl, rfl, rfl⟩

/-- C10 (amended): for every chain of scopes and unqualified symbol `s` other than `ns`,
`Resolve(s)` qualifies `s` in each scope of the chain with the current namespace of that
scope: it returns the value of the nearest scope of the chain that holds a binding under
(its own current namespace, `s`) and fails with the resolution error when there is none.
When every scope of the chain has the current namespace `N`, `Resolve(s)` succeeds
exactly when some scope of the chain holds a binding under the key (`N`, `s`), and
returns the value of the nearest such scope.  The symbol `ns` is looked up under the key
(`user`, `ns`) in every scope, whatever the current namespaces: `Resolve("ns")` returns
the value of the nearest scope of the chain that holds a binding under that key and
fails with the resolution error naming `user/ns` when there is none. -/
theorem resolve_unqualified_nearest_binding (scope : MapScope) (symbol : String)
    (hs : sepCount symbol = 0) (hns : symbol ≠ "ns") :
    (scope.Resolve symbol =
        match scope.chain.findSome?
          (fun sc => sc.bindings { NS := sc.CurrentNS, Name := symbol }) with
        | some v => .ok v
        | none => .error (.unresolved symbol)) ∧
    (∀ N : String, (∀ sc ∈ scope.chain, sc.CurrentNS = N) →
        ((∃ v, scope.Resolve symbol = .ok v) ↔
          ∃ sc ∈ scope.chain, sc.bindings { NS := N, Name := symbol } ≠ none) ∧
        scope.Resolve symbol =
          match scope.chain.findSome? (fun sc => sc.bindings { NS := N, Name := symbol }) with
          | some v => .ok v
          | none => .error (.unresolved symbol)) ∧
    (scope.Resolve "ns" =
        match scope.chain.findSome? (fun sc => sc.bindings { NS := "user", Name := "ns" }) with
        | some v => .ok v
        | none => .error (.unresolved "user/ns")) := by
  have hmain := resolve_unqualified_chain scope symbol hs hns
  refine ⟨hmain, ?_, resolve_ns_chain scope⟩
  intro N hN
  have hcongr : scope.chain.findSome?
        (fun sc => sc.bindings { NS := sc.CurrentNS, Name := symbol })
      = scope.chain.findSome? (fun sc => sc.bindings { NS := N, Name := symbol }) := by
    apply findSome?_congr_mem
    intro sc hsc
    simp only [hN sc hsc]
  rw [hcongr] at hmain
  refine ⟨?_, hmain⟩
  rw [hmain]
  cases hfind : scope.chain.findSome? (fun sc => sc.bindings { NS := N, Name := symbol }) with
  | none =>
    rw [List.findSome?_eq_none_iff] at hfind
    constructor
    · rintro ⟨v, hv⟩
      cases hv
    · rintro ⟨sc, hsc, hne⟩
      exact absurd (hfind sc hsc) hne
  | some v =>
    constructor
    · intro _
      have hsome : (scope.chain.findSome?
          (fun sc => sc.bindings { NS := N, Name := symbol })).isSome = true := by
        rw [hfind]; rfl
      rw [List.findSome?_isSome_iff] at hsome
      obtain ⟨sc, hsc, hb⟩ := hsome
      refine ⟨sc, hsc, ?_⟩
      intro hnone
      rw [hnone] at hb
      cases hb
    · intro _
      exact ⟨v, rfl⟩

theorem resolve_unqualified_nearest_binding_witness :
    (NewScope (some scopeX1)).Resolve "x" = .ok (.Int64 1) ∧
    childFoo.Resolve "ns" = .ok (.GoFunc "SwitchNS") :=
  ⟨(resolve_unqualified_nearest_binding (NewScope (some scopeX1)) "x"
      (by decide) (by decide)).1.trans rfl,
    (resolve_unqualified_nearest_binding childFoo "x" (by decide) (by decide)).2.2.trans rfl⟩

/-! ## Parameter specs -/

theorem toArgNamesLoop_symbols (names : List String) (i : Nat) (acc : List String) :
    toArgNamesLoop i (names.map Value.Symbol) acc = .ok (acc ++ names) := by
  induction names generalizing i acc with
  | nil => simp [toArgNamesLoop]
  | cons n ns ih =>
    simp only [List.map_cons, toArgNamesLoop]
    rw [ih]
    simp

theorem toArgNames_symbols (names : List String) :
    toArgNames (names.map Value.Symbol) = .ok names := by
  unfold toArgNames
  rw [toArgNamesLoop_symbols]
  simp

theorem checkVariadicLoop_no_marker (len i : Nat) (l : List String) (h : "&" ∉ l) :
    checkVariadicLoop len i l = .ok false := by
  induction l generalizing i with
  | nil => rfl
  | cons a l ih =>
    have ha : a ≠ "&" := fun hc => h (by simp [hc])
    have hl : "&" ∉ l := fun hc => h (by simp [hc])
    rw [checkVariadicLoop, if_pos ha, ih _ hl]

theorem checkVariadicLoop_first_marker (i : Nat) (a b : List String) (h : "&" ∉ a) :
    checkVariadicLoop (i + (a ++ "&" :: b).length) i (a ++ "&" :: b) =
      if b.length = 0 then .error .expectOneMore
      else if 1 < b.length then .error .expectOnlyOne
      else .ok true := by
  induction a generalizing i with
  | nil =>
    simp only [List.nil_append, List.length_cons, checkVariadicLoop, ne_eq, not_true_eq_false,
      if_false]
    by_cases hb0 : b.length = 0
    · rw [if_pos (by omega), if_pos hb0]
    · rw [if_neg (by omega), if_neg hb0]
      by_cases hb1 : 1 < b.length
      · rw [if_pos (by omega), if_pos hb1]
      · rw [if_neg (by omega), if_neg hb1]
  | cons c a ih =>
    have hc : c ≠ "&" := fun hc => h (by simp [hc])
    have ha : "&" ∉ a := fun hc => h (by simp [hc])
    have hlen : i + (c :: a ++ "&" :: b).length = (i + 1) + (a ++ "&" :: b).length := by
      simp only [List.cons_append, List.length_cons]
      omega
    rw [List.cons_append, checkVariadicLoop, if_pos hc, ← List.cons_append, hlen, ih _ ha]

theorem exists_first_marker (l : List String) (h : "&" ∈ l) :
    ∃ a b, l = a ++ "&" :: b ∧ "&" ∉ a := by
  induction l with
  | nil => cases h
  | cons c l ih =>
    by_cases hc : c = "&"
    · exact ⟨[], l, by simp [hc], by simp⟩
    · have hl : "&" ∈ l := by
        rcases List.mem_cons.1 h with h1 | h1
        · exact absurd h1.symm hc
        · exact h1
      obtain ⟨a, b, hab, ha⟩ := ih hl
      refine ⟨c :: a, b, by simp [hab], ?_⟩
      intro hmem
      rcases List.mem_cons.1 hmem with h1 | h1
      · exact hc h1.symm
      · exact ha h1

theorem indexOf_first_marker (a b : List String) (h : "&" ∉ a) :
    (a ++ "&" :: b).indexOf "&" = a.length := by
  induction a with
  | nil => simp [List.indexOf_cons_self]
  | cons c a ih =>
    have hc : c ≠ "&" := fun hc => h (by simp [hc])
    have ha : "&" ∉ a := fun hc => h (by simp [hc])
    rw [List.cons_append, List.indexOf_cons_ne _ hc, ih ha]
    rfl

theorem parseArgSpec_no_marker (fn : Fn) (names : List String) (h : "&" ∉ names) :
    fn.parseArgSpec (.Vector (names.map Value.Symbol))
      = (.ok (), .mk names false fn.Body fn.Func) := by
  unfold Fn.parseArgSpec
  simp only [toArgNames_symbols]
  unfold checkVariadic
  rw [checkVariadicLoop_no_marker _ _ _ h]

theorem parseArgSpec_first_marker (fn : Fn) (a b : List String) (h : "&" ∉ a) :
    fn.parseArgSpec (.Vector ((a ++ "&" :: b).map Value.Symbol)) =
      match b with
      | [] => (.error .expectOneMore, .mk fn.Args false fn.Body fn.Func)
      | [last] => (.ok (), .mk (a ++ [last]) true fn.Body fn.Func)
      | _ :: _ :: _ => (.error .expectOnlyOne, .mk fn.Args false fn.Body fn.Func) := by
  unfold Fn.parseArgSpec
  simp only [toArgNames_symbols]
  unfold checkVariadic
  have hloop := checkVariadicLoop_first_marker 0 a b h
  rw [Nat.zero_add] at hloop
  rw [hloop]
  match b with
  | [] => simp
  | [last] =>
    simp only [List.length_singleton, Nat.one_ne_zero, if_false, Nat.lt_irrefl]
    have hlen : (a ++ ["&", last]).length - 1 = a.length + 1 := by simp
    have hlen2 : (a ++ ["&", last]).length - 2 = a.length := by simp
    rw [hlen, hlen2]
    have hget : (a ++ ["&", last]).get? (a.length + 1) = some last := by
      rw [List.get?_eq_getElem?, List.getElem?_append_right (by omega)]
      simp
    rw [hget]
    simp
  | c :: d :: e => simp

/-- The claim C6 fails at a duplicated marker in the last position: for the spec
`[a & &]` the marker occurs twice, and `parseArgSpec` succeeds with the variadic
parameters `a` and `&`. -/
theorem parseArgSpec_duplicated_marker_counterexample :
    ["a", "&", "&"].count "&" = 2 ∧
    fnEmpty.parseArgSpec (.Vector [.Symbol "a", .Symbol "&", .Symbol "&"])
      = (.ok (), .mk ["a", "&"] true none none) :=
  ⟨by decide, rfl⟩

/-- C6 (amended): for every vector of symbols given as a parameter spec,
`Fn.parseArgSpec` succeeds exactly when the marker `&` does not occur, or its first
occurrence is the second-to-last entry (the last entry may be any symbol, `&`
included); any other placement of the first marker is a construction error.  On success
without a marker `Variadic` is false and `Args` is the list of names in order; with the
marker `Variadic` is true and `Args` is the list of names with that marker removed. -/
theorem parseArgSpec_accepts_iff (fn : Fn) (names : List String) :
    ((fn.parseArgSpec (.Vector (names.map Value.Symbol))).1 = .ok () ↔
        ("&" ∉ names ∨ names.indexOf "&" + 2 = names.length)) ∧
    ((∃ err, (fn.parseArgSpec (.Vector (names.map Value.Symbol))).1 = .error err) ↔
        ("&" ∈ names ∧ names.indexOf "&" + 2 ≠ names.length)) ∧
    ("&" ∉ names →
        (fn.parseArgSpec (.Vector (names.map Value.Symbol))).2
          = .mk names false fn.Body fn.Func) ∧
    (names.indexOf "&" + 2 = names.length →
        (fn.parseArgSpec (.Vector (names.map Value.Symbol))).2
          = .mk (names.erase "&") true fn.Body fn.Func) := by
  by_cases hmem : "&" ∈ names
  · obtain ⟨a, b, hab, ha⟩ := exists_first_marker names hmem
    subst hab
    have hidx := indexOf_first_marker a b ha
    have hspec := parseArgSpec_first_marker fn a b ha
    have herase : (a ++ "&" :: b).erase "&" = a ++ b := by
      rw [List.erase_append_right _ ha, List.erase_cons_head]
    rw [hspec, hidx, herase]
    match b with
    | [] => simp
    | [last] => simp
    | c :: d :: e => simp
  · have hspec := parseArgSpec_no_marker fn names hmem
    have hidx : names.indexOf "&" = names.length := List.indexOf_eq_length.2 hmem
    rw [hspec, hidx]
    simp [hmem]

theorem parseArgSpec_accepts_iff_witness :
    (fnEmpty.parseArgSpec (.Vector (["a", "b", "&", "rest"].map Value.Symbol))).2
      = .mk (["a", "b", "&", "rest"].erase "&") true none none :=
  (parseArgSpec_accepts_iff fnEmpty ["a", "b", "&", "rest"]).2.2.2 (by decide)

/-! ## Invocation -/

theorem NewScope_parent (parent : Option MapScope) : (NewScope parent).parent = parent := rfl

theorem NewScope_curNS (parent : Option MapScope) : (NewScope parent).curNS = "user" := rfl

theorem bindLoop_frame (fn : Fn) (args : List Value) :
    ∀ (names : List String) (idx : Nat) (sc sc1 : MapScope),
      Fn.bindLoop fn args idx names sc = some sc1 →
      sc1.parent = sc.parent ∧ sc1.curNS = sc.curNS
  | [], idx, sc, sc1, h => by
    simp only [Fn.bindLoop, Option.some.injEq] at h
    subst h
    exact ⟨rfl, rfl⟩
  | name :: rest, idx, sc, sc1, h => by
    rw [Fn.bindLoop] at h
    cases hv : fn.argVal args idx with
    | none => rw [hv] at h; cases h
    | some v =>
      rw [hv] at h
      have ih := bindLoop_frame fn args rest (idx + 1) _ sc1 h
      rw [Bind_parent, Bind_curNS] at ih
      exact ih

theorem evalValueListLoop_eq (ev : EvalFn) (vals acc : List Value) (scope : MapScope) :
    evalValueListLoop ev vals acc scope =
      match evalInOrder ev vals scope with
      | (.error err, scope1) => (.error err, scope1)
      | (.ok vs, scope1) => (.ok (acc ++ vs), scope1) := by
  induction vals generalizing acc scope with
  | nil => simp [evalValueListLoop, evalInOrder]
  | cons form rest ih =>
    rw [evalValueListLoop, evalInOrder]
    rcases hev : ev form scope with ⟨r, scope1⟩
    cases r with
    | error err => rfl
    | ok v =>
      simp only [ih]
      rcases hrest : evalInOrder ev rest scope1 with ⟨r2, scope2⟩
      cases r2 with
      | error err => rfl
      | ok vs => simp

theorem evalValueList_eq_evalInOrder (ev : EvalFn) (scope : MapScope) (vals : List Value) :
    evalValueList ev scope vals = evalInOrder ev vals scope := by
  unfold evalValueList
  rw [evalValueListLoop_eq]
  rcases h : evalInOrder ev vals scope with ⟨r, scope1⟩
  cases r with
  | error err => rfl
  | ok vs => simp

theorem evalInOrder_length (ev : EvalFn) (vals vs : List Value) (scope scope1 : MapScope)
    (h : evalInOrder ev vals scope = (.ok vs, scope1)) : vs.length = vals.length := by
  induction vals generalizing vs scope with
  | nil =>
    simp only [evalInOrder, Prod.mk.injEq, Except.ok.injEq] at h
    rw [← h.1]
  | cons form rest ih =>
    rw [evalInOrder] at h
    rcases hev : ev form scope with ⟨r, s1⟩
    rw [hev] at h
    cases r with
    | error err => simp at h
    | ok v =>
      simp only at h
      rcases hrest : evalInOrder ev rest s1 with ⟨r2, s2⟩
      rw [hrest] at h
      cases r2 with
      | error err => simp at h
      | ok vs2 =>
        simp only [Prod.mk.injEq, Except.ok.injEq] at h
        obtain ⟨h1, h2⟩ := h
        subst h2
        rw [← h1, List.length_cons, List.length_cons, ih vs2 s1 hrest]

/-- C3: for every non-macro `MultiFn` and argument list whose count matches a method,
`MultiFn.Invoke` evaluates the argument forms against the calling scope left to right,
each once (`evalValueList` is `evalInOrder`); the first evaluation failure is returned
with the scope as that failure left it, the method not being invoked; otherwise the
selected method is invoked with the evaluated values, one per form and in the same
order. -/
theorem multiFn_invoke_evaluates_args_in_order (ev : EvalFn) (inv : InvokeFn)
    (multiFn : MultiFn) (scope : MapScope) (args : List Value) (fn : Fn)
    (hfunction : MultiFn.IsMacro multiFn = false)
    (hsel : multiFn.selectMethod args = .ok fn) :
    evalValueList ev scope args = evalInOrder ev args scope ∧
    (∀ err scope1, evalInOrder ev args scope = (.error err, scope1) →
        MultiFn.Invoke ev inv multiFn scope args = (.error err, scope1)) ∧
    (∀ vals scope1, evalInOrder ev args scope = (.ok vals, scope1) →
        vals.length = args.length ∧
        MultiFn.Invoke ev inv multiFn scope args = fn.Invoke ev inv scope1 vals) := by
  have heq := evalValueList_eq_evalInOrder ev scope args
  refine ⟨heq, ?_, ?_⟩
  · intro err scope1 h
    unfold MultiFn.Invoke
    rw [hsel]
    simp only [hfunction, Bool.false_eq_true, if_false, heq, h]
  · intro vals scope1 h
    refine ⟨evalInOrder_length ev args vals scope scope1 h, ?_⟩
    unfold MultiFn.Invoke
    rw [hsel]
    simp only [hfunction, Bool.false_eq_true, if_false, heq, h]

theorem multiFn_invoke_evaluates_args_in_order_witness :
    MultiFn.Invoke (Eval noHost 1) (Invoke noHost 1) fnSecond scopeX1 [.Symbol "x", .Int64 5]
      = Fn.Invoke (Eval noHost 1) (Invoke noHost 1)
          (.mk ["a", "b"] false (some (.Symbol "b")) none) scopeX1 [.Int64 1, .Int64 5] :=
  ((multiFn_invoke_evaluates_args_in_order (Eval noHost 1) (Invoke noHost 1) fnSecond scopeX1
    [.Symbol "x", .Int64 5] (.mk ["a", "b"] false (some (.Symbol "b")) none) rfl rfl).2.2
    [.Int64 1, .Int64 5] scopeX1 rfl).2

/-- C4: for every macro `MultiFn` and argument list whose count matches a method,
`MultiFn.Invoke` passes the argument forms to the selected method as they are, in the
calling scope as it is, and returns the result of evaluating the result of the method
once more in the calling scope; a failure of the method is returned without that second
evaluation. -/
theorem macro_invoke_expands_then_evaluates (ev : EvalFn) (inv : InvokeFn)
    (multiFn : MultiFn) (scope : MapScope) (args : List Value) (fn : Fn)
    (hmac : MultiFn.IsMacro multiFn = true)
    (hsel : multiFn.selectMethod args = .ok fn) :
    (∀ v scope1, fn.Invoke ev inv scope args = (.ok v, scope1) →
        MultiFn.Invoke ev inv multiFn scope args = ev v scope1) ∧
    (∀ err scope1, fn.Invoke ev inv scope args = (.error err, scope1) →
        MultiFn.Invoke ev inv multiFn scope args = (.error err, scope1)) := by
  constructor
  · intro v scope1 h
    unfold MultiFn.Invoke
    rw [hsel]
    simp only [hmac, if_true, h]
  · intro err scope1 h
    unfold MultiFn.Invoke
    rw [hsel]
    simp only [hmac, if_true, h]

theorem macro_invoke_expands_then_evaluates_witness :
    MultiFn.Invoke (Eval noHost 1) (Invoke noHost 1) macroId scopeX1 [.Symbol "x"]
      = Eval noHost 1 (.Symbol "x") scopeX1 :=
  (macro_invoke_expands_then_evaluates (Eval noHost 1) (Invoke noHost 1) macroId scopeX1
    [.Symbol "x"] (.mk ["form"] false (some (.Symbol "form")) none) rfl rfl).1
    (.Symbol "x") scopeX1 rfl

theorem Resolve_user_unqualified (sc : MapScope) (p : String) (v : Value)
    (hcur : sc.curNS = "user") (hp : sepCount p = 0)
    (hb : sc.bindings { NS := "user", Name := p } = some v) : sc.Resolve p = .ok v := by
  apply Resolve_of_found sc p { NS := "user", Name := p } v ?_ hb
  by_cases hs : p = "ns"
  · subst hs
    exact splitSymbol_user_ns sc
  · rw [show resolveText p = p by simp [resolveText, hs], splitSymbol_unqualified sc p hp, hcur]

theorem bindLoop_binds (fn : Fn) (args : List Value) :
    ∀ (names : List String) (idx : Nat) (sc : MapScope),
      sc.curNS = "user" → names.Nodup → (∀ p ∈ names, sepCount p = 0) →
      (∀ j, j < names.length → (fn.argVal args (idx + j)).isSome = true) →
      ∃ sc1, Fn.bindLoop fn args idx names sc = some sc1 ∧
        (∀ j p, names.get? j = some p →
          sc1.bindings { NS := "user", Name := p } = fn.argVal args (idx + j)) ∧
        (∀ k, (∀ p ∈ names, k ≠ { NS := "user", Name := p }) →
          sc1.bindings k = sc.bindings k)
  | [], idx, sc, _, _, _, _ => by
    refine ⟨sc, rfl, ?_, ?_⟩
    · intro j p h
      simp at h
    · intro k _
      rfl
  | name :: rest, idx, sc, hcur, hnodup, hunq, hargs => by
    have h0 := hargs 0 (by simp)
    obtain ⟨v, hv⟩ := Option.isSome_iff_exists.1 h0
    rw [Nat.add_zero] at hv
    have hname : sepCount name = 0 := hunq name (by simp)
    have hbind := Bind_unqualified sc name v hname
    rw [hcur] at hbind
    have hnd := List.nodup_cons.1 hnodup
    obtain ⟨sc1, hloop, hbound, hframe⟩ :=
      bindLoop_binds fn args rest (idx + 1) (sc.Bind name v).2
        (by rw [Bind_curNS, hcur]) hnd.2 (fun p hp => hunq p (by simp [hp]))
        (fun j hj => by
          have := hargs (j + 1) (by simp; omega)
          rw [show idx + 1 + j = idx + (j + 1) by omega]
          exact this)
    refine ⟨sc1, ?_, ?_, ?_⟩
    · rw [Fn.bindLoop, hv]
      exact hloop
    · intro j p hj
      cases j with
      | zero =>
        simp only [List.get?_cons_zero, Option.some.injEq] at hj
        subst hj
        rw [hframe _ (fun p hp hkey => by
          have : name = p := by
            have := congrArg nsSymbol.Name hkey
            exact this
          exact hnd.1 (this ▸ hp))]
        rw [hbind, Nat.add_zero, hv]
        simp [MapScope.bindings]
      | succ j =>
        simp only [List.get?_cons_succ] at hj
        rw [hbound j p hj, show idx + 1 + j = idx + (j + 1) by omega]
    · intro k hk
      rw [hframe k (fun p hp => hk p (by simp [hp])), hbind]
      have hne : k ≠ { NS := "user", Name := name } := hk name (by simp)
      simp [MapScope.bindings, Function.update, hne]

theorem argVal_of_matchArity (fn : Fn) (args : List Value) (h : fn.matchArity args = true)
    (i : Nat) (hi : i < fn.Args.length) :
    (fn.Variadic = true ∧ i + 1 = fn.Args.length ∧
        fn.argVal args i = some (.List (args.drop i))) ∨
    ((fn.Variadic = false ∨ i + 1 < fn.Args.length) ∧
        ∃ a, args.get? i = some a ∧ fn.argVal args i = some a) := by
  rw [matchArity_iff] at h
  unfold Fn.argVal
  by_cases hv : fn.Variadic = true
  · rw [if_pos hv] at h
    by_cases hlast : i + 1 = fn.Args.length
    · left
      refine ⟨hv, hlast, ?_⟩
      rw [if_pos ⟨by omega, hv⟩, if_pos (by omega)]
    · right
      refine ⟨Or.inr (by omega), ?_⟩
      have hlt : i < args.length := by omega
      refine ⟨args.get ⟨i, hlt⟩, List.get?_eq_get hlt, ?_⟩
      rw [if_neg (fun hc => hlast (by omega))]
      exact List.get?_eq_get hlt
  · rw [if_neg hv] at h
    right
    have hv2 : fn.Variadic = false := by simpa using hv
    refine ⟨Or.inl hv2, ?_⟩
    have hlt : i < args.length := by omega
    refine ⟨args.get ⟨i, hlt⟩, List.get?_eq_get hlt, ?_⟩
    rw [if_neg (fun hc => hv hc.2)]
    exact List.get?_eq_get hlt

/-- The claim C2 fails: an `Fn` has no captured environment, and `Fn.Invoke` makes the
function scope a child of the calling scope.  The function without parameters whose body
is the free symbol `x` returns 1 when invoked from a scope that binds `x` to 1 and 2 when
invoked from a scope that binds `x` to 2: the symbol, bound only in the scope of the
caller, resolves, and the result depends on the calling scope. -/
theorem fn_invoke_dynamic_scope_counterexample :
    fnFreeX.Func = none ∧
    (Fn.Invoke (Eval noHost 1) (Invoke noHost 1) fnFreeX scopeX1 []).1 = .ok (.Int64 1) ∧
    (Fn.Invoke (Eval noHost 1) (Invoke noHost 1) fnFreeX scopeX2 []).1 = .ok (.Int64 2) ∧
    (Fn.Invoke (Eval noHost 1) (Invoke noHost 1) fnFreeX scopeX1 []).1
      ≠ (Fn.Invoke (Eval noHost 1) (Invoke noHost 1) fnFreeX scopeX2 []).1 := by
  refine ⟨rfl, rfl, rfl, ?_⟩
  intro h
  have h1 : (Fn.Invoke (Eval noHost 1) (Invoke noHost 1) fnFreeX scopeX1 []).1
      = .ok (.Int64 1) := rfl
  have h2 : (Fn.Invoke (Eval noHost 1) (Invoke noHost 1) fnFreeX scopeX2 []).1
      = .ok (.Int64 2) := rfl
  rw [h1, h2] at h
  cases h

/-- C2 (amended): for every non-native `Fn`, `Fn.Invoke` evaluates the body in a new
scope that is a child of the scope given to `Invoke`, the scope of the caller (an `Fn`
has no captured environment): the parent of the function scope is the calling scope,
the body is evaluated in the function scope, and a symbol that has no binding in the
function scope resolves there exactly as it resolves in the calling scope. -/
theorem fn_invoke_scope_is_child_of_caller (ev : EvalFn) (inv : InvokeFn) (fn : Fn)
    (scope : MapScope) (args : List Value) (fnScope : MapScope)
    (hfunc : fn.Func = none) (hsc : fn.fnScope scope args = some fnScope) :
    fnScope.Parent = some scope ∧
    (∀ body, fn.Body = some body →
        Fn.Invoke ev inv fn scope args
          = ((ev body fnScope).1, (ev body fnScope).2.parent.getD scope)) ∧
    (∀ symbol k, fnScope.splitSymbol (resolveText symbol) = .ok k →
        fnScope.bindings k = none → fnScope.Resolve symbol = scope.Resolve symbol) := by
  have hframe := bindLoop_frame fn args fn.Args 0 (NewScope (some scope)) fnScope hsc
  have hparent : fnScope.parent = some scope := by
    rw [hframe.1]
    rfl
  refine ⟨hparent, ?_, ?_⟩
  · intro body hbody
    unfold Fn.Invoke
    rw [hfunc]
    simp only [hsc, hbody]
  · intro symbol k hkey hmiss
    rw [Resolve_of_miss_parent fnScope scope symbol k hkey hmiss hparent, Resolve_resolveText]

theorem fn_invoke_scope_is_child_of_caller_witness :
    Fn.Invoke (Eval noHost 1) (Invoke noHost 1) fnFreeX scopeX1 []
      = ((Eval noHost 1 (.Symbol "x") (NewScope (some scopeX1))).1,
         (Eval noHost 1 (.Symbol "x") (NewScope (some scopeX1))).2.parent.getD scopeX1) :=
  (fn_invoke_scope_is_child_of_caller (Eval noHost 1) (Invoke noHost 1) fnFreeX scopeX1 []
    (NewScope (some scopeX1)) rfl rfl).2.1 (.Symbol "x") rfl

/-- C5: for every non-native `Fn` with distinct unqualified parameter names and every
argument list that matches its arity, the function scope is built without a failure
and the body is evaluated in it; there each parameter that is not the final parameter
of a variadic `Fn` resolves to the argument at its position (so the final parameter of
a fixed-arity `Fn` resolves to the last argument), and the final parameter of a variadic
`Fn` resolves to a `List` of all arguments from that position on (empty when there are
none). -/
theorem fn_invoke_binds_parameters (ev : EvalFn) (inv : InvokeFn) (fn : Fn)
    (scope : MapScope) (args : List Value)
    (hfunc : fn.Func = none) (hnodup : fn.Args.Nodup)
    (hunq : ∀ p ∈ fn.Args, sepCount p = 0) (harity : fn.matchArity args = true) :
    ∃ fnScope, fn.fnScope scope args = some fnScope ∧
      (∀ body, fn.Body = some body →
        Fn.Invoke ev inv fn scope args
          = ((ev body fnScope).1, (ev body fnScope).2.parent.getD scope)) ∧
      (∀ i p, fn.Args.get? i = some p → (fn.Variadic = false ∨ i + 1 < fn.Args.length) →
        ∃ a, args.get? i = some a ∧ fnScope.Resolve p = .ok a) ∧
      (∀ p, fn.Variadic = true → fn.Args.get? (fn.Args.length - 1) = some p →
        fnScope.Resolve p = .ok (.List (args.drop (fn.Args.length - 1)))) := by
  obtain ⟨fnScope, hloop, hbound, -⟩ :=
    bindLoop_binds fn args fn.Args 0 (NewScope (some scope)) rfl hnodup hunq
      (fun j hj => by
        rw [Nat.zero_add]
        rcases argVal_of_matchArity fn args harity j hj with ⟨_, _, h⟩ | ⟨_, a, _, h⟩
        · rw [h]; rfl
        · rw [h]; rfl)
  have hsc : fn.fnScope scope args = some fnScope := hloop
  have hcur : fnScope.curNS = "user" :=
    (bindLoop_frame fn args fn.Args 0 (NewScope (some scope)) fnScope hloop).2
  have hlt : ∀ i p, fn.Args.get? i = some p → i < fn.Args.length := by
    intro i p hip
    by_contra hge
    rw [List.get?_eq_none.2 (by omega)] at hip
    cases hip
  have hmem : ∀ i p, fn.Args.get? i = some p → p ∈ fn.Args := by
    intro i p hip
    exact List.get?_mem hip
  refine ⟨fnScope, hsc, ?_, ?_, ?_⟩
  · intro body hbody
    unfold Fn.Invoke
    rw [hfunc]
    simp only [hsc, hbody]
  · intro i p hip hpos
    have hb := hbound i p hip
    rw [Nat.zero_add] at hb
    rcases argVal_of_matchArity fn args harity i (hlt i p hip) with ⟨hv, hlast, _⟩ | ⟨_, a, ha, h⟩
    · rcases hpos with hpos | hpos
      · rw [hv] at hpos; cases hpos
      · omega
    · refine ⟨a, ha, ?_⟩
      rw [h] at hb
      exact Resolve_user_unqualified fnScope p a hcur (hunq p (hmem i p hip)) hb
  · intro p hv hip
    have hb := hbound _ p hip
    rw [Nat.zero_add] at hb
    have hi := hlt _ p hip
    rcases argVal_of_matchArity fn args harity _ hi with ⟨_, _, h⟩ | ⟨hpos, _⟩
    · rw [h] at hb
      exact Resolve_user_unqualified fnScope p _ hcur (hunq p (hmem _ p hip)) hb
    · rcases hpos with hpos | hpos
      · rw [hv] at hpos; cases hpos
      · omega

theorem fn_invoke_binds_parameters_witness :
    ∃ fnScope,
      fnRest.fnScope scopeX1 [.Int64 1, .Int64 2, .Int64 3, .Int64 4] = some fnScope ∧
      fnScope.Resolve "a" = .ok (.Int64 1) ∧
      fnScope.Resolve "b" = .ok (.Int64 2) ∧
      fnScope.Resolve "rest" = .ok (.List [.Int64 3, .Int64 4]) := by
  obtain ⟨fnScope, hsc, -, hfixed, hrest⟩ :=
    fn_invoke_binds_parameters (Eval noHost 1) (Invoke noHost 1) fnRest scopeX1
      [.Int64 1, .Int64 2, .Int64 3, .Int64 4] rfl (by decide) (by decide) rfl
  refine ⟨fnScope, hsc, ?_, ?_, ?_⟩
  · obtain ⟨a, ha, hres⟩ := hfixed 0 "a" rfl (Or.inr (by decide))
    cases ha
    exact hres
  · obtain ⟨a, ha, hres⟩ := hfixed 1 "b" rfl (Or.inr (by decide))
    cases ha
    exact hres
  · exact hrest "rest" rfl rfl

/-! ## Switching the namespace -/

theorem sepCount_marker : sepCount "*ns*" = 0 := by decide

theorem SwitchNS_eq (scope : MapScope) (sym : String) :
    scope.SwitchNS sym =
      (.ok (), .mk scope.parent
        (Function.update scope.bindings { NS := sym, Name := "*ns*" } (some (.Symbol sym)))
        sym) := by
  unfold MapScope.SwitchNS
  rw [Bind_unqualified _ _ _ sepCount_marker]
  rfl

/-- C11: for every scope and symbol `sym`, `SwitchNS(sym)` never fails; afterwards
`CurrentNS()` is the text of `sym`, the marker symbol `*ns*` resolves to `sym`, every
key that was bound before the switch is still bound, and every key other than the
marker key (text of `sym`, `*ns*`) holds the value it held before. -/
theorem switchNS_sets_namespace_and_marker (scope : MapScope) (sym : String) :
    (scope.SwitchNS sym).1 = .ok () ∧
    (scope.SwitchNS sym).2.CurrentNS = symbolString sym ∧
    (scope.SwitchNS sym).2.Resolve "*ns*" = .ok (.Symbol sym) ∧
    (∀ k, scope.bindings k ≠ none → (scope.SwitchNS sym).2.bindings k ≠ none) ∧
    (∀ k, k ≠ { NS := symbolString sym, Name := "*ns*" } →
        (scope.SwitchNS sym).2.bindings k = scope.bindings k) ∧
    (scope.SwitchNS sym).2.Parent = scope.Parent := by
  rw [SwitchNS_eq]
  refine ⟨rfl, rfl, ?_, ?_, ?_, rfl⟩
  · apply Resolve_of_found _ _ { NS := sym, Name := "*ns*" }
    · rw [show resolveText "*ns*" = "*ns*" from rfl, splitSymbol_unqualified _ _ sepCount_marker]
      rfl
    · simp [MapScope.bindings]
  · intro k hk
    simp only [MapScope.bindings, Function.update]
    split
    · simp
    · exact hk
  · intro k hk
    have hk2 : k ≠ { NS := sym, Name := "*ns*" } := hk
    simp [MapScope.bindings, Function.update, hk2]

theorem switchNS_sets_namespace_and_marker_witness :
    (scopeX1.SwitchNS "foo").2.bindings { NS := "user", Name := "x" } = some (.Int64 1) :=
  (switchNS_sets_namespace_and_marker scopeX1 "foo").2.2.2.2.1 { NS := "user", Name := "x" }
    (by decide)

/-! ## Vector invocation -/

theorem evalValueList_singleton (ev : EvalFn) (scope : MapScope) (form : Value) :
    evalValueList ev scope [form] =
      match ev form scope with
      | (.error err, scope1) => (.error err, scope1)
      | (.ok v, scope1) => (.ok [v], scope1) := by
  unfold evalValueList
  rw [evalValueListLoop]
  rcases ev form scope with ⟨r, scope1⟩
  cases r with
  | error err => rfl
  | ok v => rfl

/-- C12: for every vector and every argument list of exactly one form that evaluates to
an integer `i` with `0 ≤ i` and `i` less than the length of the vector, `Vector.Invoke`
succeeds and returns the element stored at `i` as it is: the stored element is not
evaluated, the scope returned is the one the evaluation of the argument left. -/
theorem vector_invoke_returns_stored_element (ev : EvalFn) (vf : List Value)
    (scope scope1 : MapScope) (form : Value) (i : Int)
    (harg : ev form scope = (.ok (.Int64 i), scope1))
    (hlo : 0 ≤ i) (hhi : i < (vf.length : Int)) :
    ∃ a, vf.get? i.toNat = some a ∧
      Vector.Invoke ev vf scope [form] = (.ok a, scope1) := by
  have hlt : i.toNat < vf.length := by omega
  refine ⟨vf.get ⟨i.toNat, hlt⟩, List.get?_eq_get hlt, ?_⟩
  unfold Vector.Invoke
  rw [evalValueList_singleton, harg]
  simp only
  rw [if_neg (by omega), if_neg (by omega), List.get?_eq_get hlt]

theorem vector_invoke_returns_stored_element_witness :
    ∃ a, vec123.get? (2 : Int).toNat = some a ∧
      Vector.Invoke (Eval noHost 1) vec123 scopeX1 [.Int64 2] = (.ok a, scopeX1) :=
  vector_invoke_returns_stored_element (Eval noHost 1) vec123 scopeX1 scopeX1 (.Int64 2) 2
    rfl (by decide) (by decide)

/-- C13: the claim is right and the code is wrong at a negative index.  The bounds
test of `Vector.Invoke` is `int(index) >= len(vf)` only; the index -1 passes it and the
indexing `vf[index]` panics: invoking the vector `[10 20 30]` with the argument -1
crashes instead of returning the error `index out of bounds`. -/
theorem vector_invoke_negative_index_panics :
    Vector.Invoke (Eval noHost 1) vec123 scopeX1 [.Int64 (-1)]
      = (.error .runtimePanic, scopeX1) ∧
    Vector.Invoke (Eval noHost 1) vec123 scopeX1 [.Int64 3]
      = (.error .indexOutOfBounds, scopeX1) :=
  ⟨rfl, rfl⟩

theorem vector_invoke_negative_index (ev : EvalFn) (vf : List Value)
    (scope scope1 : MapScope) (form : Value) (i : Int)
    (harg : ev form scope = (.ok (.Int64 i), scope1)) (hneg : i < 0) :
    Vector.Invoke ev vf scope [form] = (.error .runtimePanic, scope1) := by
  unfold Vector.Invoke
  rw [evalValueList_singleton, harg]
  simp only
  rw [if_neg (by omega), if_pos hneg]

/-! ## Set evaluation -/

theorem Set_valid_duplicate (render : Value → String) (v : Value) :
    Set.valid render [v, v] = false := by
  simp [Set.valid, Set.validLoop]

/-- C14: the claim is right and the code is wrong.  `Set.Eval` computes the elements
without duplicates (`valueSet`) and then returns `Set(vals)`, all evaluated elements:
the set of the two distinct forms `x` and `y`, in a scope where both are bound to 1,
evaluates to a set with the element 1 twice, which `Set.valid` rejects whatever the
rendering of values is. -/
theorem set_eval_keeps_duplicates :
    Set.Eval (Eval noHost 1) [.Symbol "x", .Symbol "y"] scopeXY
      = (.ok (.Set [.Int64 1, .Int64 1]), scopeXY) ∧
    ∀ render : Value → String, Set.valid render [.Int64 1, .Int64 1] = false :=
  ⟨rfl, fun render => Set_valid_duplicate render (.Int64 1)⟩

/-! ## List evaluation -/

/-- C15: for every non-empty list and scope, `List.Eval` evaluates the head; a failure
of the head is returned; a head value that is not invokable gives the type error naming
its type; otherwise the result is exactly the result of invoking the head value with the
calling scope, as the evaluation of the head left it, and the tail of the list, the
forms of the tail passed as they are. -/
theorem list_eval_invokes_head_with_tail (ev : EvalFn) (inv : InvokeFn)
    (head : Value) (tail : List Value) (scope : MapScope) :
    (∀ err scope1, ev head scope = (.error err, scope1) →
        List.Eval ev inv (head :: tail) scope = (.error err, scope1)) ∧
    (∀ target scope1, ev head scope = (.ok target, scope1) → isInvokable target = false →
        List.Eval ev inv (head :: tail) scope
          = (.error (.notInvokable (typeNameOf target)), scope1)) ∧
    (∀ target scope1, ev head scope = (.ok target, scope1) → isInvokable target = true →
        List.Eval ev inv (head :: tail) scope = inv target scope1 tail) := by
  refine ⟨?_, ?_, ?_⟩
  · intro err scope1 h
    simp only [List.Eval, h]
  · intro target scope1 h hinv
    simp [List.Eval, h, hinv]
  · intro target scope1 h hinv
    simp [List.Eval, h, hinv]

theorem list_eval_invokes_head_with_tail_witness :
    List.Eval (Eval noHost 2) (Invoke noHost 2) [.Vector vec123, .Symbol "x"] scopeX1
      = Invoke noHost 2 (.Vector vec123) scopeX1 [.Symbol "x"] :=
  (list_eval_invokes_head_with_tail (Eval noHost 2) (Invoke noHost 2) (.Vector vec123)
    [.Symbol "x"] scopeX1).2.2 (.Vector vec123) scopeX1 rfl rfl

/-- C16: for every scope, evaluating an empty list succeeds and yields an empty list;
the result does not depend on the evaluation and invocation of any value (no symbol is
resolved, nothing is invoked) and the scope is returned as it was. -/
theorem empty_list_evaluates_to_empty_list (ev : EvalFn) (inv : InvokeFn)
    (host : Host) (fuel : Nat) (scope : MapScope) :
    List.Eval ev inv [] scope = (.ok (.List []), scope) ∧
    Eval host (fuel + 1) (.List []) scope = (.ok (.List []), scope) :=
  ⟨rfl, rfl⟩

/-! ## Evaluation of vectors and modules -/

theorem evalInOrder_cons_ok (ev : EvalFn) (form v : Value) (rest vs : List Value)
    (scope s1 s2 : MapScope) (h1 : ev form scope = (.ok v, s1))
    (h2 : evalInOrder ev rest s1 = (.ok vs, s2)) :
    evalInOrder ev (form :: rest) scope = (.ok (v :: vs), s2) := by
  rw [evalInOrder, h1]
  simp only [h2]

theorem evalInOrder_ok_inv (ev : EvalFn) (form : Value) (rest vs : List Value)
    (scope s2 : MapScope) (h : evalInOrder ev (form :: rest) scope = (.ok vs, s2)) :
    ∃ v s1 vs1, ev form scope = (.ok v, s1) ∧ evalInOrder ev rest s1 = (.ok vs1, s2) ∧
      vs = v :: vs1 := by
  rw [evalInOrder] at h
  rcases hev : ev form scope with ⟨r, s1⟩
  rw [hev] at h
  cases r with
  | error err => simp at h
  | ok v =>
    simp only at h
    rcases hrest : evalInOrder ev rest s1 with ⟨r2, s3⟩
    rw [hrest] at h
    cases r2 with
    | error err => simp at h
    | ok vs1 =>
      simp only [Prod.mk.injEq, Except.ok.injEq] at h
      obtain ⟨h1, h2⟩ := h
      subst h2
      exact ⟨v, s1, vs1, rfl, hrest, h1.symm⟩

theorem evalInOrder_error_inv (ev : EvalFn) (form : Value) (rest : List Value)
    (scope s2 : MapScope) (err : Error)
    (h : evalInOrder ev (form :: rest) scope = (.error err, s2)) :
    ev form scope = (.error err, s2) ∨
      ∃ v s1, ev form scope = (.ok v, s1) ∧ evalInOrder ev rest s1 = (.error err, s2) := by
  rw [evalInOrder] at h
  rcases hev : ev form scope with ⟨r, s1⟩
  rw [hev] at h
  cases r with
  | error e =>
    left
    simp only [Prod.mk.injEq, Except.error.injEq] at h
    rw [h.1, h.2]
  | ok v =>
    right
    simp only at h
    rcases hrest : evalInOrder ev rest s1 with ⟨r2, s3⟩
    rw [hrest] at h
    cases r2 with
    | error e =>
      simp only [Prod.mk.injEq, Except.error.injEq] at h
      obtain ⟨h1, h2⟩ := h
      subst h1
      subst h2
      exact ⟨v, s1, rfl, hrest⟩
    | ok vs1 => simp at h

theorem evalInOrder_ok_step (ev : EvalFn) :
    ∀ (forms vs : List Value) (scope s2 : MapScope),
      evalInOrder ev forms scope = (.ok vs, s2) →
      ∀ (i : Nat) (hi : i < forms.length),
        ∃ si si1 v,
          evalInOrder ev (forms.take i) scope = (.ok (vs.take i), si) ∧
          ev (forms.get ⟨i, hi⟩) si = (.ok v, si1) ∧
          vs.get? i = some v ∧
          evalInOrder ev (forms.take (i + 1)) scope = (.ok (vs.take (i + 1)), si1)
  | [], _, _, _, _, i, hi => by simp at hi
  | form :: rest, vs, scope, s2, h, i, hi => by
    obtain ⟨v, s1, vs1, hev, hrest, hvs⟩ := evalInOrder_ok_inv ev form rest vs scope s2 h
    subst hvs
    cases i with
    | zero =>
      refine ⟨scope, s1, v, rfl, hev, rfl, ?_⟩
      exact evalInOrder_cons_ok ev form v [] [] scope s1 s1 hev rfl
    | succ j =>
      have hj : j < rest.length := by simpa using hi
      obtain ⟨si, si1, w, hpre, hw, hget, hnext⟩ :=
        evalInOrder_ok_step ev rest vs1 s1 s2 hrest j hj
      refine ⟨si, si1, w, ?_, hw, hget, ?_⟩
      · exact evalInOrder_cons_ok ev form v _ _ scope s1 si hev hpre
      · exact evalInOrder_cons_ok ev form v _ _ scope s1 si1 hev hnext

theorem evalInOrder_error_step (ev : EvalFn) :
    ∀ (forms : List Value) (scope s2 : MapScope) (err : Error),
      evalInOrder ev forms scope = (.error err, s2) →
      ∃ (i : Nat) (hi : i < forms.length) (before : List Value) (si : MapScope),
        evalInOrder ev (forms.take i) scope = (.ok before, si) ∧
        ev (forms.get ⟨i, hi⟩) si = (.error err, s2)
  | [], scope, s2, err, h => by simp [evalInOrder] at h
  | form :: rest, scope, s2, err, h => by
    rcases evalInOrder_error_inv ev form rest scope s2 err h with hev | ⟨v, s1, hev, hrest⟩
    · exact ⟨0, by simp, [], scope, rfl, hev⟩
    · obtain ⟨j, hj, before, si, hpre, hfail⟩ :=
        evalInOrder_error_step ev rest s1 s2 err hrest
      refine ⟨j + 1, by simpa using hj, v :: before, si, ?_, hfail⟩
      exact evalInOrder_cons_ok ev form v _ _ scope s1 si hev hpre

theorem Vector_Eval_eq (ev : EvalFn) (vf : List Value) (scope : MapScope) :
    Vector.Eval ev vf scope =
      match evalInOrder ev vf scope with
      | (.error err, scope1) => (.error err, scope1)
      | (.ok vals, scope1) => (.ok (.Vector vals), scope1) := by
  unfold Vector.Eval
  rw [evalValueList_eq_evalInOrder]

theorem Module_Eval_eq (ev : EvalFn) (mod : List Value) (scope : MapScope) :
    Module.Eval ev mod scope =
      match evalInOrder ev mod scope with
      | (.error err, scope1) => (.error err, scope1)
      | (.ok res, scope1) =>
        match res.getLast? with
        | none => (.ok .Nil, scope1)
        | some last => (.ok last, scope1) := by
  unfold Module.Eval
  rw [evalValueList_eq_evalInOrder]

/-- C17: for every vector and scope, `Vector.Eval` evaluates the elements left to right,
each in the scope left by the elements before it.  Either every element evaluates and
the result is a vector of the same length whose element at `i` is the value of the
input element at `i`; or some element fails after the elements before it evaluated, and
the result is that failure alone, with the scope as the failing element left it (no
later element is evaluated, no vector is returned).  The input vector is a value and is
not changed. -/
theorem vector_eval_in_order (ev : EvalFn) (vf : List Value) (scope : MapScope) :
    (∃ vals scope1,
        Vector.Eval ev vf scope = (.ok (.Vector vals), scope1) ∧
        evalInOrder ev vf scope = (.ok vals, scope1) ∧
        vals.length = vf.length ∧
        ∀ (i : Nat) (hi : i < vf.length), ∃ si si1 v,
          evalInOrder ev (vf.take i) scope = (.ok (vals.take i), si) ∧
          ev (vf.get ⟨i, hi⟩) si = (.ok v, si1) ∧
          vals.get? i = some v ∧
          evalInOrder ev (vf.take (i + 1)) scope = (.ok (vals.take (i + 1)), si1)) ∨
    (∃ err scope1,
        Vector.Eval ev vf scope = (.error err, scope1) ∧
        ∃ (i : Nat) (hi : i < vf.length) (before : List Value) (si : MapScope),
          evalInOrder ev (vf.take i) scope = (.ok before, si) ∧
          ev (vf.get ⟨i, hi⟩) si = (.error err, scope1)) := by
  rw [Vector_Eval_eq]
  rcases h : evalInOrder ev vf scope with ⟨r, scope1⟩
  cases r with
  | ok vals =>
    left
    exact ⟨vals, scope1, rfl, rfl, evalInOrder_length ev vf vals scope scope1 h,
      evalInOrder_ok_step ev vf vals scope scope1 h⟩
  | error err =>
    right
    exact ⟨err, scope1, rfl, evalInOrder_error_step ev vf scope scope1 err h⟩

/-- C18: for every module and scope, `Module.Eval` evaluates the forms in order against
the same scope, each form in the scope as the forms before it left it (so a binding
made by an earlier form is there for every later form).  An empty module gives `Nil`;
if every form evaluates the result is the value of the last form; if some form fails
the result is that failure, with the scope as the failing form left it (no later form
is evaluated). -/
theorem module_eval_in_order (ev : EvalFn) (mod : List Value) (scope : MapScope) :
    (mod = [] ∧ Module.Eval ev mod scope = (.ok .Nil, scope)) ∨
    (∃ res scope1 last,
        Module.Eval ev mod scope = (.ok last, scope1) ∧
        evalInOrder ev mod scope = (.ok res, scope1) ∧
        res.length = mod.length ∧ res.getLast? = some last ∧
        ∀ (i : Nat) (hi : i < mod.length), ∃ si si1 v,
          evalInOrder ev (mod.take i) scope = (.ok (res.take i), si) ∧
          ev (mod.get ⟨i, hi⟩) si = (.ok v, si1) ∧
          res.get? i = some v ∧
          evalInOrder ev (mod.take (i + 1)) scope = (.ok (res.take (i + 1)), si1)) ∨
    (∃ err scope1,
        Module.Eval ev mod scope = (.error err, scope1) ∧
        ∃ (i : Nat) (hi : i < mod.length) (before : List Value) (si : MapScope),
          evalInOrder ev (mod.take i) scope = (.ok before, si) ∧
          ev (mod.get ⟨i, hi⟩) si = (.error err, scope1)) := by
  rw [Module_Eval_eq]
  rcases h : evalInOrder ev mod scope with ⟨r, scope1⟩
  cases r with
  | error err =>
    right; right
    exact ⟨err, scope1, rfl, evalInOrder_error_step ev mod scope scope1 err h⟩
  | ok res =>
    have hlen := evalInOrder_length ev mod res scope scope1 h
    dsimp only
    cases hlast : res.getLast? with
    | none =>
      left
      have hres : res = [] := List.getLast?_eq_none_iff.1 hlast
      have hmod : mod = [] := by
        rw [hres] at hlen
        exact List.length_eq_zero.1 hlen.symm
      subst hmod
      simp only [evalInOrder, Prod.mk.injEq] at h
      rw [h.2]
      exact ⟨rfl, rfl⟩
    | some last =>
      right; left
      exact ⟨res, scope1, last, rfl, rfl, hlen, hlast,
        evalInOrder_ok_step ev mod res scope scope1 h⟩

/-! ## The core bindings of package `slang` -/

theorem Slang_splitSymbol_eq (slang : Slang) (symbol : String) :
    slang.splitSymbol symbol
      = (MapScope.mk none slang.bindings slang.currentNS).splitSymbol symbol := rfl

theorem Slang_Bind_outside (slang : Slang) (symbol : String) (v : Value)
    (hsep : sepCount symbol = 1) (hns : nsPart symbol ≠ slang.currentNS) :
    slang.Bind symbol v = (.error .bindOutsideNS, slang) := by
  unfold Slang.Bind
  rw [Slang_splitSymbol_eq, splitSymbol_qualified _ _ hsep]
  simp [hns]

theorem Slang_Resolve_unbound (slang : Slang) (symbol : String)
    (hsep : sepCount symbol = 1) (hns : symbol ≠ "ns")
    (hmiss : slang.bindings { NS := nsPart symbol, Name := namePart symbol } = none) :
    slang.Resolve symbol = .error (.unresolved symbol) := by
  unfold Slang.Resolve
  simp only [hns, if_false]
  rw [Slang_splitSymbol_eq, splitSymbol_qualified _ _ hsep]
  simp only [hmiss]

theorem coreTable_symbols :
    ∀ e ∈ coreTable, sepCount e.1 = 1 ∧ nsPart e.1 = "core" ∧ e.1 ≠ "ns" := by
  decide

theorem newBeforeBindAll_currentNS : newBeforeBindAll.currentNS = "user" := rfl

theorem newBeforeBindAll_only_user (k : nsSymbol) (hk : k.NS ≠ "user") :
    newBeforeBindAll.bindings k = none := by
  have hform : newBeforeBindAll.bindings =
      Function.update
        (Function.update (fun _ => none) { NS := "user", Name := "*ns*" }
          (some (.Symbol "user")))
        { NS := "user", Name := "ns" } (some ValueOfSwitchNS) := rfl
  rw [hform]
  have h1 : k ≠ { NS := "user", Name := "ns" } := fun h => hk (by rw [h])
  have h2 : k ≠ { NS := "user", Name := "*ns*" } := fun h => hk (by rw [h])
  simp [Function.update, h1, h2]

theorem BindAll_fails_any_order (order : List (String × Value))
    (hperm : order.Perm coreTable) :
    BindAll order newBeforeBindAll = (.error .bindOutsideNS, newBeforeBindAll) := by
  cases order with
  | nil =>
    have := hperm.length_eq
    simp [coreTable] at this
  | cons e rest =>
    have he : e ∈ coreTable := hperm.subset (by simp)
    obtain ⟨hsep, hns, -⟩ := coreTable_symbols e he
    rcases e with ⟨sym, val⟩
    rw [BindAll, BindAllLoop,
      Slang_Bind_outside newBeforeBindAll sym val hsep
        (by rw [hns, newBeforeBindAll_currentNS]; decide)]

theorem New_core_unresolved (order : List (String × Value))
    (hperm : order.Perm coreTable) :
    ∀ e ∈ coreTable, (New order).Resolve e.1 = .error (.unresolved e.1) := by
  intro e he
  obtain ⟨hsep, hns, hne⟩ := coreTable_symbols e he
  unfold New
  rw [BindAll_fails_any_order order hperm]
  apply Slang_Resolve_unbound _ _ hsep hne
  apply newBeforeBindAll_only_user
  simp only [hns]
  decide

/-- C19: the claim is right and the code is wrong.  Every symbol of the core table is
qualified with the namespace `core`, and the scope that `New` gives to `BindAll` has
the current namespace `user`: the first `Bind` fails with the error of binding outside
the current namespace, `BindAll` returns that error and binds nothing, `New` discards
the error, and afterwards no symbol of the core table resolves.  This holds for every
order in which the map is visited. -/
theorem bindAll_binds_nothing_in_user_namespace :
    BindAll coreTable newBeforeBindAll = (.error .bindOutsideNS, newBeforeBindAll) ∧
    (New coreTable).Resolve "core/eval" = .error (.unresolved "core/eval") ∧
    (∀ order : List (String × Value), order.Perm coreTable →
        (BindAll order newBeforeBindAll).1 = .error .bindOutsideNS ∧
        ∀ e ∈ coreTable, (New order).Resolve e.1 = .error (.unresolved e.1)) := by
  refine ⟨BindAll_fails_any_order coreTable (List.Perm.refl _), rfl, ?_⟩
  intro order hperm
  refine ⟨?_, New_core_unresolved order hperm⟩
  rw [BindAll_fails_any_order order hperm]

/-! ## Locks held by `Resolve` -/

theorem ResolveLocks_eq (scope : MapScope) (depth : Nat) (symbol : String) :
    scope.ResolveLocks depth symbol =
      match scope.splitSymbol (resolveText symbol) with
      | .error err => (.error err, [.RLock depth, .RUnlock depth])
      | .ok nsSym =>
        match scope.bindings nsSym with
        | some v => (.ok v, [.RLock depth, .RUnlock depth])
        | none =>
          match scope.parent with
          | some p =>
            ((p.ResolveLocks (depth + 1) (resolveText symbol)).1,
              .RLock depth :: (p.ResolveLocks (depth + 1) (resolveText symbol)).2
                ++ [.RUnlock depth])
          | none => (.error (.unresolved (resolveText symbol)), [.RLock depth, .RUnlock depth]) := by
  cases scope with
  | mk parent bindings curNS =>
    cases parent with
    | none => rw [MapScope.ResolveLocks.eq_2]; rfl
    | some p => rw [MapScope.ResolveLocks.eq_1]; rfl

theorem ResolveLocks_value :
    ∀ (scope : MapScope) (depth : Nat) (symbol : String),
      (scope.ResolveLocks depth symbol).1 = scope.Resolve symbol
  | .mk parent bindings curNS, depth, symbol => by
    rw [ResolveLocks_eq, Resolve_eq]
    cases (MapScope.mk parent bindings curNS).splitSymbol (resolveText symbol) with
    | error err => rfl
    | ok k =>
      dsimp only
      cases (MapScope.mk parent bindings curNS).bindings k with
      | some v => rfl
      | none =>
        cases parent with
        | none => rfl
        | some p =>
          dsimp only [MapScope.parent]
          exact ResolveLocks_value p (depth + 1) (resolveText symbol)

theorem le_maxHeldFrom (held : Nat) (trace : List LockEvent) :
    held ≤ maxHeldFrom held trace := by
  cases trace with
  | nil => exact Nat.le_refl _
  | cons e rest =>
    cases e with
    | RLock d => exact Nat.le_max_left _ _
    | RUnlock d => exact Nat.le_max_left _ _

theorem heldAfter_append (held : Nat) (t u : List LockEvent) :
    heldAfter held (t ++ u) = heldAfter (heldAfter held t) u := by
  induction t generalizing held with
  | nil => rfl
  | cons e rest ih =>
    cases e with
    | RLock d => exact ih (held + 1)
    | RUnlock d => exact ih (held - 1)

theorem maxHeldFrom_append (held : Nat) (t u : List LockEvent) :
    maxHeldFrom held (t ++ u)
      = max (maxHeldFrom held t) (maxHeldFrom (heldAfter held t) u) := by
  induction t generalizing held with
  | nil =>
    simp only [List.nil_append, maxHeldFrom, heldAfter]
    exact (Nat.max_eq_right (le_maxHeldFrom held u)).symm
  | cons e rest ih =>
    cases e with
    | RLock d =>
      show max held (maxHeldFrom (held + 1) (rest ++ u))
        = max (max held (maxHeldFrom (held + 1) rest))
            (maxHeldFrom (heldAfter (held + 1) rest) u)
      rw [ih (held + 1), Nat.max_assoc]
    | RUnlock d =>
      show max held (maxHeldFrom (held - 1) (rest ++ u))
        = max (max held (maxHeldFrom (held - 1) rest))
            (maxHeldFrom (heldAfter (held - 1) rest) u)
      rw [ih (held - 1), Nat.max_assoc]

theorem chain_length_pos (scope : MapScope) : 1 ≤ scope.chain.length := by
  have h := mem_chain_self scope
  exact List.length_pos_of_mem h

theorem ResolveLocks_nested :
    ∀ (scope : MapScope) (depth : Nat) (symbol : String),
      ∃ n, 1 ≤ n ∧ n ≤ scope.chain.length ∧
        ∀ held, heldAfter held (scope.ResolveLocks depth symbol).2 = held ∧
          maxHeldFrom held (scope.ResolveLocks depth symbol).2 = held + n
  | .mk parent bindings curNS, depth, symbol => by
    have hbase : ∀ held, heldAfter held [LockEvent.RLock depth, LockEvent.RUnlock depth] = held ∧
        maxHeldFrom held [LockEvent.RLock depth, LockEvent.RUnlock depth] = held + 1 := by
      intro held
      simp only [heldAfter, maxHeldFrom]
      constructor
      · omega
      · omega
    rw [ResolveLocks_eq]
    cases (MapScope.mk parent bindings curNS).splitSymbol (resolveText symbol) with
    | error err => exact ⟨1, Nat.le_refl _, chain_length_pos _, hbase⟩
    | ok k =>
      dsimp only
      cases (MapScope.mk parent bindings curNS).bindings k with
      | some v => exact ⟨1, Nat.le_refl _, chain_length_pos _, hbase⟩
      | none =>
        cases parent with
        | none => exact ⟨1, Nat.le_refl _, chain_length_pos _, hbase⟩
        | some p =>
          dsimp only [MapScope.parent]
          obtain ⟨n, hn1, hn2, hp⟩ := ResolveLocks_nested p (depth + 1) (resolveText symbol)
          refine ⟨n + 1, by omega, by rw [chain_child]; simpa using hn2, ?_⟩
          intro held
          obtain ⟨hend, hmax⟩ := hp (held + 1)
          constructor
          · rw [List.cons_append]
            simp only [heldAfter]
            rw [heldAfter_append, hend]
            simp [heldAfter]
          · rw [List.cons_append]
            simp only [maxHeldFrom]
            rw [maxHeldFrom_append, hend, hmax]
            simp only [maxHeldFrom]
            omega

/-- The claim C20 fails: the unlock of `MapScope.Resolve` is deferred, so the read lock
of the child is released only after `parent.Resolve` has returned.  Resolving `x` on a
child of `scopeX1` takes the lock of the child, then the lock of the parent, and
releases them in the reverse order: two locks are held at once. -/
theorem resolve_holds_two_locks_counterexample :
    (NewScope (some scopeX1)).ResolveLocks 0 "x"
      = (.ok (.Int64 1),
          [LockEvent.RLock 0, LockEvent.RLock 1, LockEvent.RUnlock 1, LockEvent.RUnlock 0]) ∧
    maxHeld ((NewScope (some scopeX1)).ResolveLocks 0 "x").2 = 2 :=
  ⟨rfl, rfl⟩

/-- C20 (amended): `MapScope.Resolve` releases the read lock of a scope when the call
on that scope returns.  When the child delegates to `parent.Resolve`, the read lock of
the child is still held: the lock operations of the call are the lock of the child,
the lock operations of the call on the parent, then the unlock of the child, and at
least two locks are held at once.  In every call the locks of the scopes consulted are
held together (at least one, at most as many as the chain has scopes) and none is
held when `Resolve` returns; the value returned is that of `Resolve`. -/
theorem resolve_holds_lock_during_delegation (scope : MapScope) (depth : Nat)
    (symbol : String) :
    (scope.ResolveLocks depth symbol).1 = scope.Resolve symbol ∧
    heldAfter 0 (scope.ResolveLocks depth symbol).2 = 0 ∧
    1 ≤ maxHeld (scope.ResolveLocks depth symbol).2 ∧
    maxHeld (scope.ResolveLocks depth symbol).2 ≤ scope.chain.length ∧
    (∀ k p, scope.splitSymbol (resolveText symbol) = .ok k → scope.bindings k = none →
        scope.Parent = some p →
        (scope.ResolveLocks depth symbol).2
          = .RLock depth :: (p.ResolveLocks (depth + 1) (resolveText symbol)).2
              ++ [.RUnlock depth] ∧
        2 ≤ maxHeld (scope.ResolveLocks depth symbol).2) := by
  obtain ⟨n, hn1, hn2, hall⟩ := ResolveLocks_nested scope depth symbol
  obtain ⟨hend, hmax⟩ := hall 0
  rw [Nat.zero_add] at hmax
  refine ⟨ResolveLocks_value scope depth symbol, hend, ?_, ?_, ?_⟩
  · unfold maxHeld; omega
  · unfold maxHeld; omega
  · intro k p hkey hmiss hp
    have htrace : (scope.ResolveLocks depth symbol).2
        = .RLock depth :: (p.ResolveLocks (depth + 1) (resolveText symbol)).2
            ++ [.RUnlock depth] := by
      rw [ResolveLocks_eq, hkey]
      dsimp only
      rw [hmiss, show scope.parent = some p from hp]
    refine ⟨htrace, ?_⟩
    obtain ⟨m, hm1, -, hpall⟩ := ResolveLocks_nested p (depth + 1) (resolveText symbol)
    obtain ⟨hpend, hpmax⟩ := hpall 1
    unfold maxHeld
    rw [htrace, List.cons_append]
    simp only [maxHeldFrom]
    rw [maxHeldFrom_append, hpmax]
    have := Nat.le_max_left (1 + m) (maxHeldFrom (heldAfter (0 + 1) (p.ResolveLocks (depth + 1) (resolveText symbol)).2) [LockEvent.RUnlock depth])
    omega

theorem resolve_holds_lock_during_delegation_witness :
    2 ≤ maxHeld ((NewScope (some scopeX1)).ResolveLocks 0 "x").2 :=
  ((resolve_holds_lock_during_delegation (NewScope (some scopeX1)) 0 "x").2.2.2.2
    { NS := "user", Name := "x" } scopeX1 rfl rfl rfl).2

/-- An instance of C18 with a side effect: in the module `(def y 5) y` the second form
resolves the binding the first form made. -/
theorem module_binding_visible_to_later_form :
    (Module.Eval (Eval hostDef 3) moduleDefY (NewScope none)).1 = .ok (.Int64 5) ∧
    (NewScope none).Resolve "y" = .error (.unresolved "y") :=
  ⟨rfl, rfl⟩

/-! ## Arity safety and the binds of `Fn.Invoke` -/

theorem matchArity_congr_length (fn : Fn) (args vals : List Value)
    (h : vals.length = args.length) : fn.matchArity vals = fn.matchArity args := by
  unfold Fn.matchArity
  rw [h]

theorem argVal_isSome_of_matchArity (fn : Fn) (args : List Value)
    (h : fn.matchArity args = true) (i : Nat) (hi : i < fn.Args.length) :
    (fn.argVal args i).isSome = true := by
  rcases argVal_of_matchArity fn args h i hi with ⟨_, _, hv⟩ | ⟨_, a, _, hv⟩
  · rw [hv]; rfl
  · rw [hv]; rfl

theorem bindLoop_isSome (fn : Fn) (args : List Value) :
    ∀ (names : List String) (idx : Nat) (sc : MapScope),
      (∀ j, j < names.length → (fn.argVal args (idx + j)).isSome = true) →
      (Fn.bindLoop fn args idx names sc).isSome = true
  | [], _, _, _ => rfl
  | name :: rest, idx, sc, hargs => by
    have h0 := hargs 0 (by simp)
    obtain ⟨v, hv⟩ := Option.isSome_iff_exists.1 h0
    rw [Nat.add_zero] at hv
    rw [Fn.bindLoop, hv]
    apply bindLoop_isSome fn args rest (idx + 1)
    intro j hj
    have := hargs (j + 1) (by simp; omega)
    rw [show idx + 1 + j = idx + (j + 1) by omega]
    exact this

theorem fnScope_isSome_of_matchArity (fn : Fn) (args : List Value)
    (h : fn.matchArity args = true) (scope : MapScope) :
    (fn.fnScope scope args).isSome = true := by
  unfold Fn.fnScope
  apply bindLoop_isSome
  intro j hj
  rw [Nat.zero_add]
  exact argVal_isSome_of_matchArity fn args h j hj

theorem selectMethod_matchArity (multiFn : MultiFn) (args : List Value) (fn : Fn)
    (h : multiFn.selectMethod args = .ok fn) : fn.matchArity args = true := by
  obtain ⟨_, _, _, hfn, _⟩ := (selectMethod_ok_iff multiFn args fn).1 h
  exact hfn

/-- C21: for every `Fn`, fixed or variadic and with any number of parameters, and every
argument list for which `matchArity` is true, every access of the binding loop of
`Fn.Invoke` is within bounds: at the final parameter of a variadic `Fn` the slice
`args[idx:]` has `idx ≤ len(args)`, at every other parameter the index `args[idx]` has
`idx < len(args)`, so the loop ends without a panic.  A method selected by
`MultiFn.selectMethod` therefore builds its function scope without a panic, on the
argument forms (macro) and on any list of as many evaluated values (function). -/
theorem matchArity_keeps_accesses_in_bounds :
    (∀ (fn : Fn) (args : List Value), fn.matchArity args = true →
        (∀ idx, idx < fn.Args.length →
          (if (idx : Int) = (fn.Args.length : Int) - 1 ∧ fn.Variadic = true
            then idx ≤ args.length else idx < args.length) ∧
          (fn.argVal args idx).isSome = true) ∧
        ∀ scope, (fn.fnScope scope args).isSome = true) ∧
    (∀ (multiFn : MultiFn) (forms : List Value) (fn : Fn),
        multiFn.selectMethod forms = .ok fn →
        (∀ scope, (fn.fnScope scope forms).isSome = true) ∧
        (∀ (ev : EvalFn) (scope scope1 : MapScope) (vals : List Value),
          evalValueList ev scope forms = (.ok vals, scope1) →
          (fn.fnScope scope1 vals).isSome = true)) := by
  constructor
  · intro fn args harity
    refine ⟨?_, fnScope_isSome_of_matchArity fn args harity⟩
    intro idx hidx
    refine ⟨?_, argVal_isSome_of_matchArity fn args harity idx hidx⟩
    rw [matchArity_iff] at harity
    by_cases hv : fn.Variadic = true
    · rw [if_pos hv] at harity
      by_cases hlast : (idx : Int) = (fn.Args.length : Int) - 1
      · rw [if_pos ⟨hlast, hv⟩]
        omega
      · rw [if_neg (fun hc => hlast hc.1)]
        omega
    · rw [if_neg hv] at harity
      rw [if_neg (fun hc => hv hc.2)]
      omega
  · intro multiFn forms fn hsel
    have harity := selectMethod_matchArity multiFn forms fn hsel
    refine ⟨fnScope_isSome_of_matchArity fn forms harity, ?_⟩
    intro ev scope scope1 vals hvals
    rw [evalValueList_eq_evalInOrder] at hvals
    have hlen := evalInOrder_length ev forms vals scope scope1 hvals
    apply fnScope_isSome_of_matchArity
    rw [matchArity_congr_length fn forms vals hlen]
    exact harity

theorem matchArity_keeps_accesses_in_bounds_witness :
    (fnOnlyRest.fnScope scopeX1 []).isSome = true :=
  (matchArity_keeps_accesses_in_bounds.1 fnOnlyRest [] rfl).2 scopeX1

theorem Bind_keeps_bound (scope : MapScope) (symbol : String) (v : Value) (k : nsSymbol)
    (h : scope.bindings k ≠ none) : (scope.Bind symbol v).2.bindings k ≠ none := by
  by_cases hok : (scope.Bind symbol v).1 = .ok ()
  · rw [Bind_ok_scope scope symbol v hok]
    simp only [MapScope.bindings, Function.update]
    split
    · simp
    · exact h
  · rw [Bind_error_scope scope symbol v hok]
    exact h

theorem Bind_ok_iff_bindable (scope : MapScope) (symbol : String) (v : Value)
    (hcur : scope.curNS = "user") :
    (scope.Bind symbol v).1 = .ok () ↔ bindableName symbol := by
  rw [Bind_ok_iff]
  unfold bindableName MapScope.CurrentNS
  rw [hcur]

theorem keyOf_congr (a b : MapScope) (symbol : String) (h : a.curNS = b.curNS) :
    a.keyOf symbol = b.keyOf symbol := by
  unfold MapScope.keyOf MapScope.CurrentNS
  rw [h]

theorem bindLoop_keeps_bound (fn : Fn) (args : List Value) :
    ∀ (names : List String) (idx : Nat) (sc sc1 : MapScope),
      Fn.bindLoop fn args idx names sc = some sc1 →
      ∀ k, sc.bindings k ≠ none → sc1.bindings k ≠ none
  | [], idx, sc, sc1, h, k, hk => by
    simp only [Fn.bindLoop, Option.some.injEq] at h
    subst h
    exact hk
  | name :: rest, idx, sc, sc1, h, k, hk => by
    rw [Fn.bindLoop] at h
    cases hv : fn.argVal args idx with
    | none => rw [hv] at h; cases h
    | some v =>
      rw [hv] at h
      exact bindLoop_keeps_bound fn args rest (idx + 1) _ sc1 h k
        (Bind_keeps_bound sc name v k hk)

theorem bindLog_spec (fn : Fn) (args : List Value) :
    ∀ (names : List String) (idx : Nat) (sc : MapScope),
      sc.curNS = "user" →
      (∀ j, j < names.length → (fn.argVal args (idx + j)).isSome = true) →
      (Fn.bindLog fn args idx names sc).length = names.length ∧
      ((∀ r ∈ Fn.bindLog fn args idx names sc, r = .ok ()) ↔ ∀ p ∈ names, bindableName p)
  | [], _, _, _, _ => by simp [Fn.bindLog]
  | name :: rest, idx, sc, hcur, hargs => by
    have h0 := hargs 0 (by simp)
    obtain ⟨v, hv⟩ := Option.isSome_iff_exists.1 h0
    rw [Nat.add_zero] at hv
    obtain ⟨hlen, hiff⟩ := bindLog_spec fn args rest (idx + 1) (sc.Bind name v).2
      (by rw [Bind_curNS, hcur])
      (fun j hj => by
        have := hargs (j + 1) (by simp; omega)
        rw [show idx + 1 + j = idx + (j + 1) by omega]
        exact this)
    rw [Fn.bindLog, hv]
    refine ⟨by simp [hlen], ?_⟩
    simp only [List.mem_cons, forall_eq_or_imp]
    rw [hiff, Bind_ok_iff_bindable sc name v hcur]

theorem bindLoop_bound (fn : Fn) (args : List Value) :
    ∀ (names : List String) (idx : Nat) (sc sc1 : MapScope),
      sc.curNS = "user" → (∀ p ∈ names, bindableName p) →
      Fn.bindLoop fn args idx names sc = some sc1 →
      ∀ p ∈ names, sc1.bindings (sc1.keyOf p) ≠ none
  | [], _, _, _, _, _, _ => by simp
  | name :: rest, idx, sc, sc1, hcur, hnames, h => by
    have hframe := bindLoop_frame fn args (name :: rest) idx sc sc1 h
    rw [Fn.bindLoop] at h
    cases hv : fn.argVal args idx with
    | none => rw [hv] at h; cases h
    | some v =>
      rw [hv] at h
      have hok : (sc.Bind name v).1 = .ok () :=
        (Bind_ok_iff_bindable sc name v hcur).2 (hnames name (by simp))
      intro p hp
      rcases List.mem_cons.1 hp with rfl | hrest
      · apply bindLoop_keeps_bound fn args rest (idx + 1) _ sc1 h
        rw [keyOf_congr sc1 sc p hframe.2, Bind_ok_scope sc p v hok]
        simp [MapScope.bindings]
      · exact bindLoop_bound fn args rest (idx + 1) _ sc1 (by rw [Bind_curNS, hcur])
          (fun q hq => hnames q (by simp [hq])) h p hrest

/-- The claim C22 fails at a parameter name qualified with a namespace other than
`user`: `parseArgSpec` accepts the spec `[foo/x]`, the argument list `[1]` matches the
arity of the function, and the one `Bind` of `Fn.Invoke` fails with the error of binding
outside the current namespace, which is swallowed: the function scope is the fresh scope
as `NewScope` made it and `foo/x` does not resolve in it. -/
theorem fn_invoke_bind_fails_counterexample :
    fnEmpty.parseArgSpec (.Vector [.Symbol "foo/x"])
      = (.ok (), .mk ["foo/x"] false none none) ∧
    fnQualified.matchArity [.Int64 1] = true ∧
    fnQualified.bindLog [.Int64 1] 0 fnQualified.Args (NewScope (some scopeX1))
      = [.error .bindOutsideNS] ∧
    fnQualified.fnScope scopeX1 [.Int64 1] = some (NewScope (some scopeX1)) ∧
    (NewScope (some scopeX1)).bindings { NS := "foo", Name := "x" } = none ∧
    (NewScope (some scopeX1)).Resolve "foo/x" = .error (.unresolved "foo/x") :=
  ⟨rfl, rfl, rfl, rfl, rfl, rfl⟩

/-- C22 (amended): for every `Fn` whose parameter names were produced by a successful
`parseArgSpec` from a vector of symbols (they are the names of the spec without the
marker), and every argument list matching its arity, the binding loop of `Fn.Invoke` calls `Bind` once for each parameter, and all these calls
succeed exactly when every parameter name is unqualified or qualified with the namespace
`user`, the current namespace of the fresh function scope; in that case every parameter
is bound in the function scope when the body is evaluated. -/
theorem fn_invoke_binds_succeed_iff (fn0 : Fn) (names : List String) (scope : MapScope)
    (args : List Value)
    (hspec : (fn0.parseArgSpec (.Vector (names.map Value.Symbol))).1 = .ok ())
    (harity : (fn0.parseArgSpec (.Vector (names.map Value.Symbol))).2.matchArity args = true) :
    (fn0.parseArgSpec (.Vector (names.map Value.Symbol))).2.Args = names.erase "&" ∧
    ∃ fnScope,
      (fn0.parseArgSpec (.Vector (names.map Value.Symbol))).2.fnScope scope args
        = some fnScope ∧
      (Fn.bindLog (fn0.parseArgSpec (.Vector (names.map Value.Symbol))).2 args 0
          (fn0.parseArgSpec (.Vector (names.map Value.Symbol))).2.Args
          (NewScope (some scope))).length
        = (fn0.parseArgSpec (.Vector (names.map Value.Symbol))).2.Args.length ∧
      ((∀ r ∈ Fn.bindLog (fn0.parseArgSpec (.Vector (names.map Value.Symbol))).2 args 0
          (fn0.parseArgSpec (.Vector (names.map Value.Symbol))).2.Args
          (NewScope (some scope)), r = .ok ()) ↔
        ∀ p ∈ (fn0.parseArgSpec (.Vector (names.map Value.Symbol))).2.Args, bindableName p) ∧
      ((∀ p ∈ (fn0.parseArgSpec (.Vector (names.map Value.Symbol))).2.Args, bindableName p) →
        ∀ p ∈ (fn0.parseArgSpec (.Vector (names.map Value.Symbol))).2.Args,
          fnScope.bindings (fnScope.keyOf p) ≠ none) := by
  have hArgs : (fn0.parseArgSpec (.Vector (names.map Value.Symbol))).2.Args
      = names.erase "&" := by
    by_cases hmem : "&" ∈ names
    · obtain ⟨a, b, hab, ha⟩ := exists_first_marker names hmem
      subst hab
      rw [parseArgSpec_first_marker fn0 a b ha] at hspec ⊢
      rw [List.erase_append_right _ ha, List.erase_cons_head]
      match b with
      | [] => simp at hspec
      | [last] => rfl
      | c :: d :: e => simp at hspec
    · rw [parseArgSpec_no_marker fn0 names hmem, List.erase_of_not_mem hmem]
      rfl
  refine ⟨hArgs, ?_⟩
  generalize (fn0.parseArgSpec (.Vector (names.map Value.Symbol))).2 = fn at harity ⊢
  have hsome := fnScope_isSome_of_matchArity fn args harity scope
  obtain ⟨fnScope, hsc⟩ := Option.isSome_iff_exists.1 hsome
  have hargs : ∀ j, j < fn.Args.length → (fn.argVal args (0 + j)).isSome = true := by
    intro j hj
    rw [Nat.zero_add]
    exact argVal_isSome_of_matchArity fn args harity j hj
  obtain ⟨hlen, hiff⟩ := bindLog_spec fn args fn.Args 0 (NewScope (some scope)) rfl hargs
  refine ⟨fnScope, hsc, hlen, hiff, ?_⟩
  intro hnames
  exact bindLoop_bound fn args fn.Args 0 (NewScope (some scope)) fnScope rfl hnames hsc

theorem fn_invoke_binds_succeed_iff_witness :
    ∃ fnScope,
      (fnEmpty.parseArgSpec (.Vector (["a", "user/b", "&", "rest"].map Value.Symbol))).2.fnScope
          scopeX1 [.Int64 1, .Int64 2] = some fnScope ∧
      fnScope.bindings { NS := "user", Name := "b" } ≠ none := by
  obtain ⟨-, fnScope, hsc, -, -, hbound⟩ :=
    fn_invoke_binds_succeed_iff fnEmpty ["a", "user/b", "&", "rest"] scopeX1
      [.Int64 1, .Int64 2] rfl rfl
  refine ⟨fnScope, hsc, ?_⟩
  have hb := hbound (by
    intro p hp
    have hp2 : p = "a" ∨ p = "user/b" ∨ p = "rest" := by
      simpa [Fn.parseArgSpec, toArgNames, toArgNamesLoop, checkVariadic, checkVariadicLoop,
        Fn.Args] using hp
    rcases hp2 with rfl | rfl | rfl
    · exact Or.inl (by decide)
    · exact Or.inr ⟨by decide, by decide⟩
    · exact Or.inl (by decide)) "user/b" (by
      simp [Fn.parseArgSpec, toArgNames, toArgNamesLoop, checkVariadic, checkVariadicLoop,
        Fn.Args])
  have hkey : fnScope.keyOf "user/b" = { NS := "user", Name := "b" } := by
    unfold MapScope.keyOf
    rw [if_neg (by decide)]
    rfl
  rw [hkey] at hb
  exact hb

end Sabre
